import Mathlib

/-!
Verification development for the decaf-ts/decoration repository.

The TypeScript sources are shallowly embedded: metadata values become the
inductive `Val`, JavaScript objects become association lists (keys kept in
insertion order, as JS preserves property insertion order), and the mutating
store operations become pure functions from buckets to buckets.  Fallible
operations return `Except String`, carrying the thrown `Error`'s message.
JavaScript reference equality between deep-cloned snapshots is discussed at
the definitions it affects.
-/

set_option maxHeartbeats 1000000
set_option linter.unreachableTactic false
set_option linter.unusedTactic false
set_option linter.unusedVariables false

/-- Metadata values: primitives (strings, numbers, booleans, functions and
class references are all atomic for the store and are represented by a
string tag), arrays, and plain objects (association lists in insertion
order).  `undefined` is represented by `Option Val` at use sites. -/
inductive Val where
  | prim (s : String)
  | arr (elems : List Val)
  | obj (entries : List (String × Val))
deriving Repr

/-- Association-list lookup, modelling `obj[key]` /
`Object.prototype.hasOwnProperty` access on a JS object (and, with `Nat`
keys, lookup in a map keyed by target identity). -/
def aGet {κ α : Type} [DecidableEq κ] (l : List (κ × α)) (k : κ) : Option α :=
  match l with
  | [] => none
  | (k', v) :: r => if k' = k then some v else aGet r k

/-- Association-list update, modelling `obj[key] = v` on a JS object: an
existing key keeps its position, a new key is appended (JS insertion
order). -/
def aSet {κ α : Type} [DecidableEq κ] (l : List (κ × α)) (k : κ) (v : α) :
    List (κ × α) :=
  match l with
  | [] => [(k, v)]
  | (k', w) :: r => if k' = k then (k, v) :: r else (k', w) :: aSet r k v

/-- Association-list removal, modelling `delete obj[key]`. -/
def aDel {α : Type} (l : List (String × α)) (k : String) : List (String × α) :=
  l.filter (fun e => e.1 != k)

/-- Keys of a JS object in insertion order (`Reflect.ownKeys`). -/
def aKeys {α : Type} (l : List (String × α)) : List String :=
  l.map (fun e => e.1)

/-- The child entry list of a binding: the entries of a plain object, and
`[]` for `undefined` or a non-object value (the walks in the source replace
non-object intermediates with `{}`). -/
def childEntries (o : Option Val) : List (String × Val) :=
  match o with
  | some (Val.obj m) => m
  | _ => []

/-- Walk of `setValueBySplitter` (src/src/metadata/Metadata.ts lines 86-111)
on an already-split path: intermediate keys that are missing, `null`, or not
objects are replaced with `{}`; the final key receives the value.  The
caller `setValueBySplitter` filters out empty segments first; this raw walk
is shared with `revertMetadataDiff`, whose walk has the same semantics
(src/src/decoration/Decoration.ts lines 1849-1856). -/
def setPathRaw (l : List (String × Val)) (p : List String) (v : Val) :
    List (String × Val) :=
  match p with
  | [] => l
  | [k] => aSet l k v
  | k :: ks => aSet l k (Val.obj (setPathRaw (childEntries (aGet l k)) ks v))

/-- Model of `setValueBySplitter` (src/src/metadata/Metadata.ts lines
86-111) on a pre-split path: empty segments are filtered out and an empty
path is a no-op. -/
def setValueBySplitter (l : List (String × Val)) (p : List String) (v : Val) :
    List (String × Val) :=
  let keys := p.filter (fun k => k.length > 0)
  if keys.isEmpty then l else setPathRaw l keys v

/-- Model of `getValueBySplitter` (src/src/metadata/Metadata.ts lines
39-58) on a pre-split path: walks own properties, `undefined` when a
segment is missing or the current value is not an object holding it. -/
def getValueBySplitter (l : List (String × Val)) (p : List String) :
    Option Val :=
  match p with
  | [] => some (Val.obj l)
  | [k] => aGet l k
  | k :: ks =>
    match aGet l k with
    | some (Val.obj m) => getValueBySplitter m ks
    | _ => none

mutual
/-- Model of the deep `cloneMetadataValue` of
src/src/decoration/Decoration.ts lines 863-891: primitives and functions
are returned as-is, arrays and plain objects are copied recursively (Date,
Set and Map values do not occur in this embedding).  In the pure embedding
cloning is the identity, proved below as `cloneDeep_id`. -/
def cloneDeep : Val → Val
  | Val.prim s => Val.prim s
  | Val.arr l => Val.arr (cloneDeepList l)
  | Val.obj l => Val.obj (cloneDeepEntries l)

/-- Elementwise clone of an array's contents. -/
def cloneDeepList : List Val → List Val
  | [] => []
  | v :: r => cloneDeep v :: cloneDeepList r

/-- Entrywise clone of an object's contents (`Reflect.ownKeys` copy). -/
def cloneDeepEntries : List (String × Val) → List (String × Val)
  | [] => []
  | (k, v) :: r => (k, cloneDeep v) :: cloneDeepEntries r
end

/-- JavaScript truthiness of a possibly-absent metadata value: `undefined`
and the empty string are falsy, arrays and objects are always truthy
(numeric `0` does not occur in this embedding, numbers being opaque
primitives). -/
def truthyVal (o : Option Val) : Bool :=
  match o with
  | none => false
  | some (Val.prim s) => s != ""
  | some (Val.arr _) => true
  | some (Val.obj _) => true

/-- Strong induction on the size of a `Val`, used for proofs that recurse
through the nested lists inside values. -/
theorem valStrongInd (P : Val → Prop)
    (h : ∀ v : Val, (∀ w : Val, sizeOf w < sizeOf v → P w) → P v) :
    ∀ v : Val, P v := by
  have key : ∀ (n : Nat) (v : Val), sizeOf v ≤ n → P v := by
    intro n
    induction n with
    | zero => intro v hv; cases v <;> simp_all
    | succ n ih =>
      intro v hv
      exact h v (fun w hw => ih w (by omega))
  exact fun v => key (sizeOf v) v (Nat.le_refl _)

theorem sizeOf_lt_of_mem_list {v : Val} {l : List Val} (h : v ∈ l) :
    sizeOf v < sizeOf l := by
  induction l with
  | nil => cases h
  | cons a r ih =>
    rcases List.mem_cons.mp h with h1 | h2
    · subst h1; simp; omega
    · have := ih h2; simp; omega

theorem sizeOf_lt_of_mem_entries {k : String} {v : Val}
    {l : List (String × Val)} (h : (k, v) ∈ l) : sizeOf v < sizeOf l := by
  induction l with
  | nil => cases h
  | cons a r ih =>
    rcases List.mem_cons.mp h with h1 | h2
    · cases a with
      | mk k' v' =>
        cases h1
        simp
        omega
    · have := ih h2; simp; omega

theorem cloneDeepList_congr {l : List Val}
    (h : ∀ v ∈ l, cloneDeep v = v) : cloneDeepList l = l := by
  induction l with
  | nil => rfl
  | cons a r ih =>
    rw [cloneDeepList, h a (List.mem_cons_self a r),
      ih (fun v hv => h v (List.mem_cons_of_mem a hv))]

theorem cloneDeepEntries_congr {l : List (String × Val)}
    (h : ∀ e ∈ l, cloneDeep e.2 = e.2) : cloneDeepEntries l = l := by
  induction l with
  | nil => rfl
  | cons a r ih =>
    cases a with
    | mk k v =>
      rw [cloneDeepEntries, h (k, v) (List.mem_cons_self _ r),
        ih (fun e he => h e (List.mem_cons_of_mem _ he))]

mutual
/-- Structural (value) equality test on metadata values. -/
def beqVal : Val → Val → Bool
  | Val.prim a, Val.prim b => a == b
  | Val.arr a, Val.arr b => beqValList a b
  | Val.obj a, Val.obj b => beqValEntries a b
  | _, _ => false

/-- Structural equality test on array contents. -/
def beqValList : List Val → List Val → Bool
  | [], [] => true
  | a :: r, b :: s => beqVal a b && beqValList r s
  | _, _ => false

/-- Structural equality test on object entry lists. -/
def beqValEntries : List (String × Val) → List (String × Val) → Bool
  | [], [] => true
  | (k, v) :: r, (k', w) :: s => k == k' && beqVal v w && beqValEntries r s
  | _, _ => false
end

theorem beqValList_iff {l m : List Val}
    (h : ∀ v ∈ l, ∀ w : Val, beqVal v w = true ↔ v = w) :
    beqValList l m = true ↔ l = m := by
  induction l generalizing m with
  | nil => cases m <;> simp [beqValList]
  | cons a r ih =>
    cases m with
    | nil => simp [beqValList]
    | cons b s =>
      rw [beqValList]
      simp only [Bool.and_eq_true, List.cons.injEq]
      rw [h a (List.mem_cons_self a r) b,
        ih (fun v hv => h v (List.mem_cons_of_mem a hv))]

theorem beqValEntries_iff {l m : List (String × Val)}
    (h : ∀ e ∈ l, ∀ w : Val, beqVal e.2 w = true ↔ e.2 = w) :
    beqValEntries l m = true ↔ l = m := by
  induction l generalizing m with
  | nil => cases m <;> simp [beqValEntries]
  | cons a r ih =>
    cases m with
    | nil => cases a; simp [beqValEntries]
    | cons b s =>
      cases a with
      | mk k v =>
        cases b with
        | mk k' w =>
          rw [beqValEntries]
          simp only [Bool.and_eq_true, List.cons.injEq, Prod.mk.injEq,
            beq_iff_eq]
          rw [h (k, v) (List.mem_cons_self _ r) w,
            ih (fun e he => h e (List.mem_cons_of_mem _ he))]

theorem beqVal_iff : ∀ a b : Val, beqVal a b = true ↔ a = b := by
  apply valStrongInd (fun a => ∀ b : Val, beqVal a b = true ↔ a = b)
  intro a ih b
  cases a with
  | prim s => cases b <;> simp [beqVal]
  | arr l =>
    cases b with
    | prim s => simp [beqVal]
    | obj m => simp [beqVal]
    | arr m =>
      rw [beqVal]
      rw [beqValList_iff (fun v hv w => ih v ?_ w)]
      · simp
      · have := sizeOf_lt_of_mem_list hv
        simp
        omega
  | obj l =>
    cases b with
    | prim s => simp [beqVal]
    | arr m => simp [beqVal]
    | obj m =>
      rw [beqVal]
      rw [beqValEntries_iff (fun e he w => ih e.2 ?_ w)]
      · simp
      · have : sizeOf e.2 < sizeOf l := by
          cases e with
          | mk k v => exact sizeOf_lt_of_mem_entries he
        simp
        omega

instance : DecidableEq Val :=
  fun a b => decidable_of_iff (beqVal a b = true) (beqVal_iff a b)

/-- Deep cloning is the identity in the pure embedding. -/
theorem cloneDeep_id : ∀ v : Val, cloneDeep v = v := by
  apply valStrongInd
  intro v ih
  cases v with
  | prim s => rfl
  | arr l =>
    rw [cloneDeep]
    rw [cloneDeepList_congr (fun w hw => ih w ?_)]
    have := sizeOf_lt_of_mem_list hw
    simp
    omega
  | obj l =>
    rw [cloneDeep]
    rw [cloneDeepEntries_congr (fun e he => ih e.2 ?_)]
    have : sizeOf e.2 < sizeOf l := by
      cases e with
      | mk k w => exact sizeOf_lt_of_mem_entries he
    simp
    omega


/-- Structural split of a string on the `.` splitter, mirroring
`path.split(splitter)` with `ObjectKeySplitter = "."` (src/src/constants.ts
line 24); written by direct recursion on the character list so that it
evaluates inside the kernel. -/
def splitDotAux : List Char → List Char → List String
  | [], acc => [String.mk acc.reverse]
  | c :: rest, acc =>
    if c = '.' then String.mk acc.reverse :: splitDotAux rest []
    else splitDotAux rest (c :: acc)

/-- Splits a key path on `.`, as `getValueBySplitter`/`setValueBySplitter`
do on their string arguments. -/
def splitDot (s : String) : List String :=
  splitDotAux s.data []

/-- Model of `Metadata.isPlainObject` (src/src/metadata/Metadata.ts lines
510-515): arrays and null are excluded; in this embedding exactly the
`obj` values qualify. -/
def isPlainObject : Val → Bool
  | Val.obj _ => true
  | _ => false

mutual
/-- Model of `Metadata.mergePlainObjects` (src/src/metadata/Metadata.ts
lines 473-502): starts from a copy of `target` and folds the entries of
`source` over it in key order (JS objects have unique keys, so iterating
entries coincides with iterating `Object.keys`). -/
def mergePlainObjects (target source : List (String × Val)) :
    List (String × Val) :=
  match source with
  | [] => target
  | (k, sv) :: rest => mergePlainObjects (mergeEntry target k sv) rest
termination_by sizeOf source
decreasing_by all_goals simp_wf <;> omega

/-- One iteration of the `for (const key of Object.keys(source))` loop of
`mergePlainObjects`: nested plain objects merge recursively (against `{}`
when the target value is not a plain object), arrays are copied, and any
other source value overrides. -/
def mergeEntry (result : List (String × Val)) (k : String) (sv : Val) :
    List (String × Val) :=
  match sv with
  | Val.obj sl =>
    match aGet result k with
    | some (Val.obj tl) => aSet result k (Val.obj (mergePlainObjects tl sl))
    | _ => aSet result k (Val.obj (mergePlainObjects [] sl))
  | Val.arr al => aSet result k (Val.arr al)
  | v => aSet result k v
termination_by sizeOf sv
decreasing_by all_goals simp_wf <;> omega
end

/-- Model of `Metadata.cloneMetadataValue` (src/src/metadata/Metadata.ts
lines 459-464): arrays are shallow-copied, plain objects are deep-cloned
through `mergePlainObjects {}`, and other values are returned as-is. -/
def cloneMetadataValue : Val → Val
  | Val.arr l => Val.arr l
  | Val.obj l => Val.obj (mergePlainObjects [] l)
  | v => v

/-- One step of the fold inside `Metadata.mergeMetadataChain`
(src/src/metadata/Metadata.ts lines 430-451) once the accumulator holds a
value: two plain objects deep-merge, anything else is replaced by a clone
of the more derived value. -/
def chainMergeStep (a value : Val) : Val :=
  match a, value with
  | Val.obj ta, Val.obj sa => Val.obj (mergePlainObjects ta sa)
  | _, _ => cloneMetadataValue value

/-- Model of `Metadata.mergeMetadataChain` (src/src/metadata/Metadata.ts
lines 430-451): left fold over the values collected from base to derived,
starting from an undefined accumulator. -/
def mergeMetadataChain (values : List Val) : Option Val :=
  values.foldl
    (fun acc value =>
      match acc with
      | none => some (cloneMetadataValue value)
      | some a => some (chainMergeStep a value))
    none

/-- Model of the chain-reading core of `Metadata.get` (src/src/metadata/
Metadata.ts lines 358-378) at a fixed key path.  `buckets` are the
per-ancestor metadata buckets ordered from most-base to most-derived, as
produced by `collectConstructorChain` (lines 410-422, which reverses the
leaf-to-base prototype walk).  The PENDING-triggered resolution step is a
no-op in the sources as given (no `registerPendingResolver` call exists),
and the `constructors.length === 0` fallback cannot fire for a real
constructor, so both are omitted. -/
def metadataGetAt (buckets : List (List (String × Val)))
    (path : List String) : Option Val :=
  let collectedValues :=
    (buckets.map (fun b => getValueBySplitter b path)).filterMap id
  if collectedValues.isEmpty then none else mergeMetadataChain collectedValues

/-- Model of `Metadata.param` (src/src/metadata/Metadata.ts lines 277-289):
reads `methods.<prop>.design:paramtypes` through `Metadata.params`, returns
`undefined` when nothing (or a falsy value) is recorded, throws when the
requested index exceeds the last recorded index, and returns the entry
otherwise.  A recorded non-array value has no `length` in JS, the bound
check is then vacuously false and `params[index]` is `undefined` (an object
value could only hit a numeric string key). -/
def metadataParam (buckets : List (List (String × Val))) (prop : String)
    (index : Nat) : Except String (Option Val) :=
  match metadataGetAt buckets ["methods", prop, "design:paramtypes"] with
  | none => Except.ok none
  | some (Val.prim _) => Except.ok none
  | some (Val.obj m) => Except.ok (aGet m (toString index))
  | some (Val.arr ps) =>
    if (index : Int) > (ps.length : Int) - 1 then
      Except.error
        ("Parameter index " ++ toString index ++ " out of range for " ++ prop)
    else Except.ok ps[index]?

/-- Model of `Metadata.registerLibrary` (src/src/metadata/Metadata.ts lines
602-610): the library name is used as an `innerGet`/`innerSet` key path
under the shared libraries symbol (so it is split on the `.` splitter); a
truthy existing record throws, otherwise the version string is stored. -/
def registerLibrary (libs : List (String × Val)) (library version : String) :
    Except String (List (String × Val)) :=
  if truthyVal (getValueBySplitter libs (splitDot library)) then
    Except.error
      ("Library already " ++ library ++ " registered with version " ++ version)
  else
    Except.ok (setValueBySplitter libs (splitDot library) (Val.prim version))

theorem aGet_aSet_self {κ α : Type} [DecidableEq κ] (l : List (κ × α))
    (k : κ) (v : α) : aGet (aSet l k v) k = some v := by
  induction l with
  | nil => simp [aGet, aSet]
  | cons e r ih =>
    cases e with
    | mk k' w =>
      by_cases h : k' = k
      · subst h; simp [aGet, aSet]
      · simp [aGet, aSet, h, ih]

theorem aGet_aSet_ne {κ α : Type} [DecidableEq κ] (l : List (κ × α))
    {k k' : κ} (v : α) (h : k' ≠ k) : aGet (aSet l k v) k' = aGet l k' := by
  have hne : ¬ k = k' := fun hh => h hh.symm
  induction l with
  | nil => simp [aGet, aSet, hne]
  | cons e r ih =>
    cases e with
    | mk k0 w =>
      by_cases h0 : k0 = k
      · subst h0; simp [aGet, aSet, hne]
      · simp only [aSet, if_neg h0, aGet]
        by_cases h1 : k0 = k'
        · simp [h1]
        · simp [h1, ih]

theorem setPathRaw_single (l : List (String × Val)) (k : String) (v : Val) :
    setPathRaw l [k] v = aSet l k v := rfl

theorem setPathRaw_cons (l : List (String × Val)) (k k1 : String)
    (ks : List String) (v : Val) :
    setPathRaw l (k :: k1 :: ks) v =
      aSet l k (Val.obj (setPathRaw (childEntries (aGet l k)) (k1 :: ks) v)) :=
  rfl

theorem getValueBySplitter_single (l : List (String × Val)) (k : String) :
    getValueBySplitter l [k] = aGet l k := rfl

theorem getValueBySplitter_cons (l : List (String × Val)) (k k1 : String)
    (ks : List String) :
    getValueBySplitter l (k :: k1 :: ks) =
      (match aGet l k with
       | some (Val.obj m) => getValueBySplitter m (k1 :: ks)
       | _ => none) := rfl

theorem getValueBySplitter_setPathRaw_self (p : List String) :
    ∀ (b : List (String × Val)) (v : Val), p ≠ [] →
    getValueBySplitter (setPathRaw b p v) p = some v := by
  induction p with
  | nil => intro b v h; exact absurd rfl h
  | cons k ks ih =>
    intro b v _
    cases ks with
    | nil => simp [setPathRaw_single, getValueBySplitter_single, aGet_aSet_self]
    | cons k1 ks1 =>
      rw [setPathRaw_cons, getValueBySplitter_cons, aGet_aSet_self]
      exact ih _ v (List.cons_ne_nil _ _)

/-- Rewrites `setValueBySplitter` to the raw walk when the path is
non-empty with non-empty segments (the filter keeps every segment). -/
theorem setValueBySplitter_eq_raw (l : List (String × Val))
    (p : List String) (v : Val) (hp : p ≠ [])
    (hsegs : ∀ s ∈ p, 0 < s.length) :
    setValueBySplitter l p v = setPathRaw l p v := by
  have hfilter : p.filter (fun k => k.length > 0) = p := by
    apply List.filter_eq_self.mpr
    intro s hs
    simpa using hsegs s hs
  rw [setValueBySplitter]
  simp only [hfilter]
  rw [if_neg (by simpa [List.isEmpty_iff] using hp)]

/-- C6: requesting a recorded parameter at an index strictly greater than
the last recorded parameter index throws an error whose message mentions
the requested index (the spec's RangeError category; the source throws
`Error` with this message). -/
theorem c6_param_out_of_range (buckets : List (List (String × Val)))
    (prop : String) (ps : List Val) (index : Nat)
    (hps : metadataGetAt buckets ["methods", prop, "design:paramtypes"] =
      some (Val.arr ps))
    (hidx : ps.length ≤ index) :
    metadataParam buckets prop index =
      Except.error
        ("Parameter index " ++ toString index ++ " out of range for " ++ prop)
    := by
  have hgt : (index : Int) > (ps.length : Int) - 1 := by omega
  rw [metadataParam, hps]
  simp [hgt]

/-- Witness for C6: one parameter recorded for method `g`, index 2
requested, the raised message mentions index 2. -/
theorem c6_param_out_of_range_witness :
    metadataParam
      [[("methods",
         Val.obj [("g",
           Val.obj [("design:paramtypes", Val.arr [Val.prim "String"])])])]]
      "g" 2 =
    Except.error
      ("Parameter index " ++ toString 2 ++ " out of range for " ++ "g") :=
  c6_param_out_of_range _ "g" [Val.prim "String"] 2 (by rfl) (by decide)

/-- C7 counterexample: with the empty string as first version, the stored
record is falsy, so a second registration of the same library name does
not throw and silently overwrites the first record — the claim as stated
(quantified over every pair of versions) fails. -/
theorem c7_counterexample :
    registerLibrary [] "L" "" = Except.ok [("L", Val.prim "")] ∧
    registerLibrary [("L", Val.prim "")] "L" "1.0" =
      Except.ok [("L", Val.prim "1.0")] :=
  ⟨rfl, rfl⟩

/-- C7 (amended to non-empty first versions): for a library name not yet
present whose name splits into non-empty segments, a first registration
with a non-empty version succeeds and records the version, and any second
registration for the same name throws with the duplicate-registration
message; the error branch returns no new store, so the first record is
unchanged. -/
theorem c7_register_library_guard (libs : List (String × Val))
    (L v1 v2 : String)
    (hsegs : ∀ s ∈ splitDot L, 0 < s.length)
    (habs : getValueBySplitter libs (splitDot L) = none)
    (hv1 : v1 ≠ "") :
    registerLibrary libs L v1 =
      Except.ok (setValueBySplitter libs (splitDot L) (Val.prim v1)) ∧
    registerLibrary (setValueBySplitter libs (splitDot L) (Val.prim v1))
      L v2 =
      Except.error
        ("Library already " ++ L ++ " registered with version " ++ v2) := by
  have hne : splitDot L ≠ [] := by
    intro h
    rw [h] at habs
    simp [getValueBySplitter] at habs
  constructor
  · rw [registerLibrary, habs]
    simp [truthyVal]
  · rw [registerLibrary]
    rw [setValueBySplitter_eq_raw _ _ _ hne hsegs]
    rw [getValueBySplitter_setPathRaw_self _ _ _ hne]
    simp [truthyVal, hv1]

/-- Witness for C7: registering `L` at version `1.0` then again at `1.0`
raises the duplicate message. -/
theorem c7_register_library_guard_witness :
    registerLibrary [] "L" "1.0" = Except.ok [("L", Val.prim "1.0")] ∧
    registerLibrary [("L", Val.prim "1.0")] "L" "1.0" =
      Except.error
        ("Library already " ++ "L" ++ " registered with version " ++ "1.0")
    := by
  have h := c7_register_library_guard [] "L" "1.0" "1.0"
    (by decide) (by rfl) (by decide)
  exact h

/-- JS objects have unique keys; buckets and written values in this
development satisfy this invariant. -/
def keysNodup {α : Type} (l : List (String × α)) : Prop :=
  (l.map Prod.fst).Nodup

instance {α : Type} (l : List (String × α)) : Decidable (keysNodup l) := by
  unfold keysNodup; infer_instance

theorem aGet_eq_none_of_not_mem {κ α : Type} [DecidableEq κ]
    {l : List (κ × α)} {k : κ} (h : k ∉ l.map Prod.fst) : aGet l k = none := by
  induction l with
  | nil => rfl
  | cons e r ih =>
    cases e with
    | mk k0 w =>
      have h0 : ¬ k0 = k := by
        intro hh
        exact h (by simp [hh])
      rw [aGet, if_neg h0]
      exact ih (fun hm => h (by simp [hm]))

theorem aGet_mergeEntry_ne (a : List (String × Val)) (k0 : String) (sv : Val)
    {k : String} (h : ¬ k0 = k) :
    aGet (mergeEntry a k0 sv) k = aGet a k := by
  have h' : k ≠ k0 := fun hh => h hh.symm
  cases sv with
  | obj sl =>
    rw [mergeEntry.eq_def]
    rcases h0 : aGet a k0 with _ | v
    · simp [aGet_aSet_ne _ _ h']
    · cases v <;> simp [aGet_aSet_ne _ _ h']
  | arr al => rw [mergeEntry.eq_def]; exact aGet_aSet_ne _ _ h'
  | prim s => rw [mergeEntry.eq_def]; exact aGet_aSet_ne _ _ h'

/-- Lookup characterization of `mergePlainObjects`: for each key, a missing
source key keeps the target value, a plain-object source value deep-merges
into the target value (against `{}` when the target value is not a plain
object), and array or primitive source values override outright. -/
theorem aGet_mergePlainObjects (b : List (String × Val)) :
    ∀ (a : List (String × Val)) (k : String), keysNodup b →
    aGet (mergePlainObjects a b) k =
      (match aGet b k with
       | none => aGet a k
       | some (Val.obj sl) =>
         some (Val.obj
           (match aGet a k with
            | some (Val.obj tl) => mergePlainObjects tl sl
            | _ => mergePlainObjects [] sl))
       | some (Val.arr al) => some (Val.arr al)
       | some v => some v) := by
  induction b with
  | nil => intro a k _; rw [mergePlainObjects]; rfl
  | cons e rest ih =>
    intro a k hnd
    cases e with
    | mk k0 sv =>
      have hnd' : keysNodup rest := by
        have := hnd
        unfold keysNodup at *
        simp only [List.map_cons, List.nodup_cons] at this
        exact this.2
      have hmem : k0 ∉ rest.map Prod.fst := by
        have := hnd
        unfold keysNodup at this
        simp only [List.map_cons, List.nodup_cons] at this
        exact this.1
      rw [mergePlainObjects]
      rw [ih (mergeEntry a k0 sv) k hnd']
      by_cases hk : k0 = k
      · subst hk
        have hrest : aGet rest k0 = none := aGet_eq_none_of_not_mem hmem
        rw [hrest]
        have hcons : aGet ((k0, sv) :: rest) k0 = some sv := by
          rw [aGet]; simp
        rw [hcons]
        cases sv with
        | obj sl =>
          rw [mergeEntry.eq_def]
          rcases h0 : aGet a k0 with _ | v
          · simp [aGet_aSet_self]
          · cases v <;> simp [aGet_aSet_self]
        | arr al => rw [mergeEntry.eq_def]; simp [aGet_aSet_self]
        | prim s => rw [mergeEntry.eq_def]; simp [aGet_aSet_self]
      · have hcons : aGet ((k0, sv) :: rest) k = aGet rest k := by
          rw [aGet, if_neg hk]
        rw [hcons, aGet_mergeEntry_ne a k0 sv hk]

/-- C4 counterexample: the pairwise chain merge is not associative.  With
`v1 = {k: {a: "1"}}`, `v2 = {k: "5"}`, `v3 = {k: {b: "2"}}`, merging
left-associatively (as `mergeMetadataChain` folds) yields `{k: {b: "2"}}`,
while right-associating yields `{k: {a: "1", b: "2"}}`. -/
theorem c4_counterexample :
    chainMergeStep
        (chainMergeStep (Val.obj [("k", Val.obj [("a", Val.prim "1")])])
          (Val.obj [("k", Val.prim "5")]))
        (Val.obj [("k", Val.obj [("b", Val.prim "2")])]) ≠
      chainMergeStep (Val.obj [("k", Val.obj [("a", Val.prim "1")])])
        (chainMergeStep (Val.obj [("k", Val.prim "5")])
          (Val.obj [("k", Val.obj [("b", Val.prim "2")])])) := by
  simp [chainMergeStep, mergePlainObjects, mergeEntry, aGet, aSet,
    cloneMetadataValue]

/-- C4 (amended: the chain merge is applied as a left fold from most-base
to most-derived; it is not associative in general).  First conjunct: the
chain read folds the pairwise merge left-associatively over the collected
values, seeded with a clone of the most-base value.  Second conjunct: at
every key, a derived plain-object value merges recursively into the
ancestor value (so derived keys override ancestor keys recursively), while
a derived array or primitive value replaces the ancestor value outright;
keys the derived bucket lacks keep the ancestor value. -/
theorem c4_chain_merge (v : Val) (rest : List Val)
    (a b : List (String × Val)) (k : String) (hnd : keysNodup b) :
    mergeMetadataChain (v :: rest) =
      some (rest.foldl chainMergeStep (cloneMetadataValue v)) ∧
    aGet (mergePlainObjects a b) k =
      (match aGet b k with
       | none => aGet a k
       | some (Val.obj sl) =>
         some (Val.obj
           (match aGet a k with
            | some (Val.obj tl) => mergePlainObjects tl sl
            | _ => mergePlainObjects [] sl))
       | some (Val.arr al) => some (Val.arr al)
       | some w => some w) := by
  constructor
  · have key : ∀ (l : List Val) (acc : Val),
        List.foldl
          (fun acc value =>
            match acc with
            | none => some (cloneMetadataValue value)
            | some a => some (chainMergeStep a value))
          (some acc) l = some (l.foldl chainMergeStep acc) := by
      intro l
      induction l with
      | nil => intro acc; rfl
      | cons x xs ih => intro acc; simp only [List.foldl_cons]; exact ih _
    rw [mergeMetadataChain]
    simp only [List.foldl_cons]
    exact key rest (cloneMetadataValue v)
  · exact aGet_mergePlainObjects b a k hnd

/-- Witness for C4: a three-level chain with concrete buckets, and a
concrete key lookup on a merge with a nodup derived bucket. -/
theorem c4_chain_merge_witness :
    mergeMetadataChain
        [Val.obj [("x", Val.prim "1")], Val.obj [("y", Val.prim "2")],
         Val.obj [("x", Val.prim "3")]] =
      some
        (List.foldl chainMergeStep
          (cloneMetadataValue (Val.obj [("x", Val.prim "1")]))
          [Val.obj [("y", Val.prim "2")], Val.obj [("x", Val.prim "3")]]) ∧
    aGet
        (mergePlainObjects [("x", Val.prim "1")]
          [("x", Val.prim "3"), ("z", Val.arr [Val.prim "4"])]) "x" =
      (match aGet [("x", Val.prim "3"), ("z", Val.arr [Val.prim "4"])] "x" with
       | none => aGet [("x", Val.prim "1")] "x"
       | some (Val.obj sl) =>
         some (Val.obj
           (match aGet [("x", Val.prim "1")] "x" with
            | some (Val.obj tl) => mergePlainObjects tl sl
            | _ => mergePlainObjects [] sl))
       | some (Val.arr al) => some (Val.arr al)
       | some w => some w) :=
  c4_chain_merge (Val.obj [("x", Val.prim "1")])
    [Val.obj [("y", Val.prim "2")], Val.obj [("x", Val.prim "3")]]
    [("x", Val.prim "1")] [("x", Val.prim "3"), ("z", Val.arr [Val.prim "4"])]
    "x" (by decide)

/-- The default flavour identifier, `DefaultFlavour = "decaf"`
(src/src/constants.ts line 16). -/
def DefaultFlavour : String := "decaf"

/-- A registered decorator entry: a direct decorator function, a
`{decorator, args}` factory bundle (`DecoratorFactoryArgs`), or the
`{decorator}` form without `args` that `extend` accepts
(src/src/decoration/Decoration.ts lines 809-846).  Functions are
identified by an opaque id standing for JS reference identity, and factory
arguments are opaque values. -/
inductive DecoratorData where
  | fn (id : Nat)
  | factoryArgs (id : Nat) (args : List Nat)
  | factoryOnly (id : Nat)
deriving Repr, DecidableEq

/-- The `typeof d === "object"` test on a stored entry. -/
def isObjEntry : DecoratorData → Bool
  | DecoratorData.fn _ => false
  | DecoratorData.factoryArgs _ _ => true
  | DecoratorData.factoryOnly _ => true

/-- JS `Set` insertion: a present element is kept in place, a new element
is appended. -/
def jsSetAdd {α : Type} [DecidableEq α] (l : List α) (a : α) : List α :=
  if a ∈ l then l else l ++ [a]

/-- `new Set([...entries])`: insertion-order deduplication. -/
def jsSetOfList {α : Type} [DecidableEq α] (l : List α) : List α :=
  l.foldl jsSetAdd []

theorem mem_jsSetAdd {α : Type} [DecidableEq α] (l : List α) (a x : α) :
    x ∈ jsSetAdd l a ↔ x ∈ l ∨ x = a := by
  rw [jsSetAdd]
  by_cases h : a ∈ l
  · rw [if_pos h]
    constructor
    · exact Or.inl
    · rintro (hx | hx)
      · exact hx
      · exact hx ▸ h
  · rw [if_neg h]
    simp

theorem mem_jsSetOfList {α : Type} [DecidableEq α] (l : List α) (x : α) :
    x ∈ jsSetOfList l ↔ x ∈ l := by
  have key : ∀ (m : List α) (acc : List α),
      x ∈ m.foldl jsSetAdd acc ↔ x ∈ acc ∨ x ∈ m := by
    intro m
    induction m with
    | nil => intro acc; simp
    | cons a r ih =>
      intro acc
      rw [List.foldl_cons, ih, mem_jsSetAdd]
      simp
      tauto
  rw [jsSetOfList, key]
  simp

/-- One `(key, flavour)` cell of the static registry
`Decoration.decorators` (src/src/decoration/Decoration.ts lines
1086-1095): an optional base set and an optional extension set. -/
structure FlavourBucket where
  decorators : Option (List DecoratorData)
  extras : Option (List DecoratorData)
deriving Repr, DecidableEq

/-- The static registry table: key → flavour → bucket. -/
abbrev Registry := List (String × List (String × FlavourBucket))

/-- Reads `Decoration.decorators[key]?.[flavour]`. -/
def registryGet (reg : Registry) (key flavour : String) :
    Option FlavourBucket :=
  match aGet reg key with
  | none => none
  | some cache => aGet cache flavour

/-- Model of the static `Decoration.register` (src/src/decoration/
Decoration.ts lines 1758-1779): guards on missing key/flavour, creates the
nested buckets, always overwrites `decorators`, and overwrites `extras`
only when the argument is defined.  The `!decorators` guard cannot fire
here because `apply()` always passes a set (possibly empty, and empty sets
are truthy in JS). -/
def decorationRegister (reg : Registry) (key flavour : String)
    (decorators : List DecoratorData) (extras : Option (List DecoratorData)) :
    Except String Registry :=
  if key = "" then
    Except.error "No key provided for the decoration builder"
  else if flavour = "" then
    Except.error "No flavour provided for the decoration builder"
  else
    let cache := (aGet reg key).getD []
    let bucket := (aGet cache flavour).getD ⟨none, none⟩
    let b1 : FlavourBucket := { bucket with decorators := some decorators }
    let b2 : FlavourBucket :=
      match extras with
      | none => b1
      | some e => { b1 with extras := some e }
    Except.ok (aSet reg key (aSet cache flavour b2))

/-- The fluent builder's instance state (`Decoration`'s `flavour`, `key`,
`decorators`, `extras` fields, src/src/decoration/Decoration.ts lines
1104-1118). -/
structure Builder where
  flavour : String
  key : Option String
  decorators : Option (List DecoratorData)
  extras : Option (List DecoratorData)
deriving Repr, DecidableEq

/-- `new Decoration(flavour)`. -/
def newDecoration (flavour : String) : Builder :=
  ⟨flavour, none, none, none⟩

/-- `for(key)` (src/src/decoration/Decoration.ts lines 1419-1422). -/
def builderFor (b : Builder) (key : String) : Builder :=
  { b with key := some key }

/-- Model of the private `decorate` (src/src/decoration/Decoration.ts
lines 1431-1457): requires a key; with no entries, not as addon and a
non-default flavour it throws; as addon it merges into the extension set,
otherwise it wholesale replaces the base set.  (The source message reads
"... to override or extend decaf's decorators"; the apostrophe is elided
here.) -/
def decorate (b : Builder) (addon : Bool) (ds : List DecoratorData) :
    Except String Builder :=
  match b.key with
  | none => Except.error "key must be provided before decorators can be added"
  | some k =>
    if k = "" then
      Except.error "key must be provided before decorators can be added"
    else if ds.isEmpty ∧ addon = false ∧ b.flavour ≠ DefaultFlavour then
      Except.error
        "Must provide overrides or addons to override or extend decaf decorators"
    else if addon then
      Except.ok { b with extras := some (jsSetOfList ((b.extras.getD []) ++ ds)) }
    else
      Except.ok { b with decorators := some (jsSetOfList ds) }

/-- `define(...decorators)` (src/src/decoration/Decoration.ts lines
1484-1495): at most one object-form entry, then `decorate(false, ...)`. -/
def builderDefine (b : Builder) (ds : List DecoratorData) :
    Except String Builder :=
  if ds.any isObjEntry ∧ ds.length ≠ 1 then
    Except.error "When using an overridable decorator, only one is allowed"
  else decorate b false ds

/-- `extend(...decorators)` (src/src/decoration/Decoration.ts lines
1503-1512): at most one object-form entry, then `decorate(true, ...)`. -/
def builderExtend (b : Builder) (ds : List DecoratorData) :
    Except String Builder :=
  if ds.any isObjEntry ∧ ds.length ≠ 1 then
    Except.error "When extending using an overridable decorator, only one is allowed"
  else decorate b true ds

/-- The registration half of `apply()` (src/src/decoration/Decoration.ts
lines 1669-1692): requires a key, falls back to the already-registered
base set (then to an empty set) when the builder defined none, and passes
the builder's extras through only when defined. -/
def builderApplyRegister (reg : Registry) (b : Builder) :
    Except String Registry :=
  match b.key with
  | none => Except.error "No key provided for the decoration builder"
  | some key =>
    if key = "" then
      Except.error "No key provided for the decoration builder"
    else
      let existing := (registryGet reg key b.flavour).bind
        (fun bk => bk.decorators)
      let toRegister :=
        match b.decorators with
        | some d => d
        | none =>
          match existing with
          | some d => d
          | none => []
      decorationRegister reg key b.flavour toRegister b.extras

/-- The C2 sequence: `define(base1).apply()`, then on a fresh builder for
the same (key, flavour) `extend(exts).apply()`, then on a fresh builder
`define(base2).apply()`. -/
def c2Run (reg : Registry) (k f : String)
    (base1 exts base2 : List DecoratorData) : Except String Registry := do
  let b1 ← builderDefine (builderFor (newDecoration f) k) base1
  let reg1 ← builderApplyRegister reg b1
  let b2 ← builderExtend (builderFor (newDecoration f) k) exts
  let reg2 ← builderApplyRegister reg1 b2
  let b3 ← builderDefine (builderFor (newDecoration f) k) base2
  builderApplyRegister reg2 b3

theorem builderDefine_ok (f k : String) (ds : List DecoratorData)
    (hk : k ≠ "")
    (hobj : ¬ (ds.any isObjEntry ∧ ds.length ≠ 1))
    (hempty : ds ≠ [] ∨ f = DefaultFlavour) :
    builderDefine (builderFor (newDecoration f) k) ds =
      Except.ok ⟨f, some k, some (jsSetOfList ds), none⟩ := by
  rw [builderDefine, if_neg hobj]
  show decorate ⟨f, some k, none, none⟩ false ds = _
  rw [decorate]
  simp only [if_neg hk]
  split
  case isTrue hcond =>
    exfalso
    obtain ⟨he, -, hf⟩ := hcond
    rcases hempty with h | h
    · exact h (List.isEmpty_iff.mp he)
    · exact hf h
  case isFalse => simp

theorem builderExtend_ok (f k : String) (ds : List DecoratorData)
    (hk : k ≠ "")
    (hobj : ¬ (ds.any isObjEntry ∧ ds.length ≠ 1)) :
    builderExtend (builderFor (newDecoration f) k) ds =
      Except.ok ⟨f, some k, none, some (jsSetOfList ds)⟩ := by
  rw [builderExtend, if_neg hobj]
  show decorate ⟨f, some k, none, none⟩ true ds = _
  rw [decorate]
  simp only [if_neg hk]
  split
  case isTrue hcond => exfalso; simp at hcond
  case isFalse => simp

theorem except_ok_bind {α β σ : Type} (x : α) (g : α → Except σ β) :
    (Except.ok x >>= g) = g x := rfl

theorem decorationRegister_eq (reg : Registry) (key flavour : String)
    (d : List DecoratorData) (e : Option (List DecoratorData))
    (hk : ¬ key = "") (hf : ¬ flavour = "") :
    decorationRegister reg key flavour d e =
      Except.ok (aSet reg key
        (aSet ((aGet reg key).getD []) flavour
          { (aGet ((aGet reg key).getD []) flavour).getD ⟨none, none⟩ with
              decorators := some d,
              extras :=
                match e with
                | none =>
                  ((aGet ((aGet reg key).getD []) flavour).getD
                    ⟨none, none⟩).extras
                | some x => some x })) := by
  rw [decorationRegister, if_neg hk, if_neg hf]
  cases e <;> rfl

theorem registryGet_aSet_self (reg : Registry) (cache : List (String × FlavourBucket))
    (k f : String) (bk : FlavourBucket) :
    registryGet (aSet reg k (aSet cache f bk)) k f = some bk := by
  rw [registryGet, aGet_aSet_self]
  exact aGet_aSet_self cache f bk

theorem builderApplyRegister_withDecorators (reg : Registry) (f k : String)
    (d : List DecoratorData) (e : Option (List DecoratorData))
    (hk : ¬ k = "") :
    builderApplyRegister reg ⟨f, some k, some d, e⟩ =
      decorationRegister reg k f d e := by
  rw [builderApplyRegister]
  simp only [if_neg hk]

theorem builderApplyRegister_noDecorators (reg : Registry) (f k : String)
    (e : Option (List DecoratorData)) (d : List DecoratorData)
    (hk : ¬ k = "")
    (hex : (registryGet reg k f).bind (fun bk => bk.decorators) = some d) :
    builderApplyRegister reg ⟨f, some k, none, e⟩ =
      decorationRegister reg k f d e := by
  rw [builderApplyRegister]
  simp only [if_neg hk, hex]

/-- C2: for every key and flavour, defining a base set, extending, then
defining a second base set leaves the registry cell with exactly the new
base set and the previously registered extension set: `define` wholesale
replaces the base set and never clears the extension set. -/
theorem c2_define_replaces_extend_persists (reg : Registry) (k f : String)
    (base1 exts base2 : List DecoratorData)
    (hk : k ≠ "") (hf : f ≠ "")
    (hobj1 : ¬ (base1.any isObjEntry ∧ base1.length ≠ 1))
    (hobj2 : ¬ (exts.any isObjEntry ∧ exts.length ≠ 1))
    (hobj3 : ¬ (base2.any isObjEntry ∧ base2.length ≠ 1))
    (he1 : base1 ≠ [] ∨ f = DefaultFlavour)
    (he3 : base2 ≠ [] ∨ f = DefaultFlavour) :
    ∃ reg3, c2Run reg k f base1 exts base2 = Except.ok reg3 ∧
      registryGet reg3 k f =
        some ⟨some (jsSetOfList base2), some (jsSetOfList exts)⟩ := by
  have h1 := builderDefine_ok f k base1 hk hobj1 he1
  have h2 := builderExtend_ok f k exts hk hobj2
  have h3 := builderDefine_ok f k base2 hk hobj3 he3
  have happ1 := builderApplyRegister_withDecorators reg f k
    (jsSetOfList base1) none hk
  have hreg1 := decorationRegister_eq reg k f (jsSetOfList base1) none hk hf
  set R1 := aSet reg k
    (aSet ((aGet reg k).getD []) f
      { (aGet ((aGet reg k).getD []) f).getD ⟨none, none⟩ with
          decorators := some (jsSetOfList base1),
          extras :=
            ((aGet ((aGet reg k).getD []) f).getD ⟨none, none⟩).extras })
    with hR1def
  have hg1 : registryGet R1 k f =
      some ⟨some (jsSetOfList base1),
        ((aGet ((aGet reg k).getD []) f).getD ⟨none, none⟩).extras⟩ := by
    rw [hR1def]
    exact registryGet_aSet_self _ _ _ _ _
  have hex1 : (registryGet R1 k f).bind (fun bk => bk.decorators) =
      some (jsSetOfList base1) := by
    rw [hg1]
    rfl
  have happ2 := builderApplyRegister_noDecorators R1 f k
    (some (jsSetOfList exts)) (jsSetOfList base1) hk hex1
  have hreg2 := decorationRegister_eq R1 k f (jsSetOfList base1)
    (some (jsSetOfList exts)) hk hf
  set R2 := aSet R1 k
    (aSet ((aGet R1 k).getD []) f
      { (aGet ((aGet R1 k).getD []) f).getD ⟨none, none⟩ with
          decorators := some (jsSetOfList base1),
          extras := some (jsSetOfList exts) })
    with hR2def
  have hg2 : registryGet R2 k f =
      some ⟨some (jsSetOfList base1), some (jsSetOfList exts)⟩ := by
    rw [hR2def]
    exact registryGet_aSet_self _ _ _ _ _
  have happ3 := builderApplyRegister_withDecorators R2 f k
    (jsSetOfList base2) none hk
  have hreg3 := decorationRegister_eq R2 k f (jsSetOfList base2) none hk hf
  have hold2 : (aGet ((aGet R2 k).getD []) f).getD ⟨none, none⟩ =
      FlavourBucket.mk (some (jsSetOfList base1)) (some (jsSetOfList exts)) := by
    have h := hg2
    rw [registryGet] at h
    rcases hA : aGet R2 k with _ | cache2
    · rw [hA] at h; simp at h
    · rw [hA] at h
      have hc : aGet cache2 f =
          some ⟨some (jsSetOfList base1), some (jsSetOfList exts)⟩ := h
      simp [hA, hc]
  set R3 := aSet R2 k
    (aSet ((aGet R2 k).getD []) f
      { (aGet ((aGet R2 k).getD []) f).getD ⟨none, none⟩ with
          decorators := some (jsSetOfList base2),
          extras :=
            ((aGet ((aGet R2 k).getD []) f).getD ⟨none, none⟩).extras })
    with hR3def
  refine ⟨R3, ?_, ?_⟩
  · rw [c2Run, h1, except_ok_bind, happ1, hreg1, except_ok_bind,
      h2, except_ok_bind, happ2, hreg2, except_ok_bind,
      h3, except_ok_bind, happ3, hreg3]
  · rw [hR3def]
    rw [registryGet_aSet_self]
    rw [hold2]

/-- Witness for C2: concrete bases and extension on key `k`, flavour
`flv`. -/
theorem c2_define_replaces_extend_persists_witness :
    ∃ reg3,
      c2Run [] "k" "flv" [DecoratorData.fn 1] [DecoratorData.fn 2]
          [DecoratorData.fn 3] = Except.ok reg3 ∧
      registryGet reg3 "k" "flv" =
        some ⟨some (jsSetOfList [DecoratorData.fn 3]),
          some (jsSetOfList [DecoratorData.fn 2])⟩ :=
  c2_define_replaces_extend_persists [] "k" "flv" [DecoratorData.fn 1]
    [DecoratorData.fn 2] [DecoratorData.fn 3] (by decide) (by decide)
    (by decide) (by decide) (by decide) (Or.inl (by decide))
    (Or.inl (by decide))

/-- The record of one behavior invocation performed by a dispatch: a
direct decorator function called, or a factory called with the resolved
argument list to obtain the concrete decorator. -/
inductive Invoked where
  | fnInv (id : Nat)
  | factoryInv (id : Nat) (args : List Nat)
deriving Repr, DecidableEq

/-- The id of an invocation record. -/
def invokedId : Invoked → Nat
  | Invoked.fnInv id => id
  | Invoked.factoryInv id _ => id

/-- The id of a stored entry. -/
def dataId : DecoratorData → Nat
  | DecoratorData.fn id => id
  | DecoratorData.factoryArgs id _ => id
  | DecoratorData.factoryOnly id => id

/-- The `baseArgsByIndex`/`defaultArgsByIndex` reduce of
`decoratorFactory` (src/src/decoration/Decoration.ts lines 1570-1596):
maps an index to the `args` of the object entry at that index, when it has
them. -/
def argsByIndex (l : List DecoratorData) (i : Nat) : Option (List Nat) :=
  match l[i]? with
  | some (DecoratorData.factoryArgs _ a) => some a
  | _ => none

/-- The invocation loop of `contextDecorator` (src/src/decoration/
Decoration.ts lines 1609-1651), recorded as the list of performed
invocations.  For an object entry the argument list is resolved exactly as
in the source: an override for a base position wins (JS `||`, and arrays
are truthy even when empty), else the entry's own `args`, else the
`baseArgsByIndex`/`defaultArgsByIndex` fallback chain with final default
`[]`.  Argument values are opaque here so the `cloneMetadataValue` of each
argument is the identity.  Every `DecoratorData` is a function or an
object, so the source's `Unexpected decorator type` throw is
unrepresentable. -/
def invokeFrom (baseLength : Nat)
    (argsOverrides baseArgs defaultArgs : Nat → Option (List Nat)) :
    List DecoratorData → Nat → List Invoked
  | [], _ => []
  | d :: rest, index =>
    let candidateIndex := if index < baseLength then index else 0
    let overrideArgs :=
      if index < baseLength then argsOverrides candidateIndex else none
    let inv :=
      match d with
      | DecoratorData.fn id => Invoked.fnInv id
      | DecoratorData.factoryArgs id a =>
        Invoked.factoryInv id
          (match overrideArgs with
           | some a2 => a2
           | none => a)
      | DecoratorData.factoryOnly id =>
        Invoked.factoryInv id
          (match overrideArgs with
           | some a2 => a2
           | none =>
             (((baseArgs candidateIndex).orElse
                (fun _ => defaultArgs candidateIndex)).orElse
                (fun _ => defaultArgs 0)).getD [])
    inv :: invokeFrom baseLength argsOverrides baseArgs defaultArgs rest
      (index + 1)

/-- Model of `contextDecorator` (src/src/decoration/Decoration.ts lines
1541-1656) for an already-resolved flavour (`f ?? flavourResolver(target)`
has produced `flavour`): selects the extension set from the resolved
flavour's bucket when that bucket exists (else the default bucket's),
selects the base set from the resolved flavour's bucket when it has a
non-empty base set (else the default bucket's base set), and invokes
`base ++ extras` in order.  Accessing a missing `cache` or a missing
default bucket throws a TypeError in JS. -/
def decoratorFactoryRun (reg : Registry) (key flavour : String)
    (overrides : Nat → Option (List Nat)) : Except String (List Invoked) := do
  let cache ←
    match aGet reg key with
    | none => Except.error "TypeError: Decoration.decorators[key] is undefined"
    | some c => Except.ok c
  let extras ←
    match aGet cache flavour with
    | some fb => Except.ok fb.extras
    | none =>
      match aGet cache DefaultFlavour with
      | some db => Except.ok db.extras
      | none => Except.error "TypeError: default bucket is undefined"
  let dec ←
    match aGet cache flavour with
    | some fb =>
      match fb.decorators with
      | some ds =>
        if ds.isEmpty then
          match aGet cache DefaultFlavour with
          | some db => Except.ok db.decorators
          | none => Except.error "TypeError: default bucket is undefined"
        else Except.ok (some ds)
      | none =>
        match aGet cache DefaultFlavour with
        | some db => Except.ok db.decorators
        | none => Except.error "TypeError: default bucket is undefined"
    | none =>
      match aGet cache DefaultFlavour with
      | some db => Except.ok db.decorators
      | none => Except.error "TypeError: default bucket is undefined"
  let baseDecoratorsList := dec.getD []
  let defaultDecoratorsList :=
    ((aGet cache DefaultFlavour).bind (fun db => db.decorators)).getD []
  let toApply := baseDecoratorsList ++ (extras.getD [])
  Except.ok
    (invokeFrom baseDecoratorsList.length overrides
      (argsByIndex baseDecoratorsList) (argsByIndex defaultDecoratorsList)
      toApply 0)

/-- The base set the claim says a dispatch uses: the resolved variant's
base set, falling back to the default variant's when empty or absent. -/
def claimBase (cache : List (String × FlavourBucket)) (flavour : String)
    (db : FlavourBucket) : List DecoratorData :=
  match aGet cache flavour with
  | some fb =>
    match fb.decorators with
    | some ds => if ds.isEmpty then db.decorators.getD [] else ds
    | none => db.decorators.getD []
  | none => db.decorators.getD []

/-- The extension set the claim says a dispatch uses: from the resolved
variant's bucket when that bucket exists, else from the default's. -/
def claimExtras (cache : List (String × FlavourBucket)) (flavour : String)
    (db : FlavourBucket) : List DecoratorData :=
  (match aGet cache flavour with
   | some fb => fb.extras
   | none => db.extras).getD []

theorem invokeFrom_map_id (baseLength : Nat)
    (ov ba da : Nat → Option (List Nat)) (l : List DecoratorData) :
    ∀ i, (invokeFrom baseLength ov ba da l i).map invokedId =
      l.map dataId := by
  induction l with
  | nil => intro i; rfl
  | cons d rest ih =>
    intro i
    rw [invokeFrom.eq_def]
    cases d <;> simp [invokedId, dataId, ih (i + 1)]

/-- C3: a dispatch with resolved variant `flavour` on an existing key
invokes exactly the claim's base set (the resolved variant's base set,
falling back to the default variant's when empty or absent) followed by
the claim's extension set (from the resolved variant's bucket when that
bucket exists, else the default's), in registration order, one invocation
per entry. -/
theorem c3_dispatch_order (reg : Registry) (key flavour : String)
    (ov : Nat → Option (List Nat))
    (cache : List (String × FlavourBucket)) (db : FlavourBucket)
    (hc : aGet reg key = some cache)
    (hdb : aGet cache DefaultFlavour = some db) :
    ∃ L, decoratorFactoryRun reg key flavour ov = Except.ok L ∧
      L.map invokedId =
        (claimBase cache flavour db).map dataId ++
        (claimExtras cache flavour db).map dataId := by
  rw [decoratorFactoryRun]
  rcases hfb : aGet cache flavour with _ | fb
  · simp only [hc, hfb, hdb, except_ok_bind]
    refine ⟨_, rfl, ?_⟩
    rw [invokeFrom_map_id, List.map_append]
    simp [claimBase, claimExtras, hfb, hdb]
  · rcases hds : fb.decorators with _ | ds
    · simp only [hc, hfb, hds, hdb, except_ok_bind]
      refine ⟨_, rfl, ?_⟩
      rw [invokeFrom_map_id, List.map_append]
      simp [claimBase, claimExtras, hfb, hds, hdb]
    · by_cases he : ds.isEmpty
      · simp only [hc, hfb, hds, he, hdb, except_ok_bind, if_true]
        refine ⟨_, rfl, ?_⟩
        rw [invokeFrom_map_id, List.map_append]
        simp [claimBase, claimExtras, hfb, hds, hdb, he]
      · simp only [hc, hfb, hds, hdb, except_ok_bind,
          Bool.not_eq_true] at he ⊢
        simp only [he, Bool.false_eq_true, if_false, except_ok_bind]
        refine ⟨_, rfl, ?_⟩
        rw [invokeFrom_map_id, List.map_append]
        simp [claimBase, claimExtras, hfb, hds, hdb, he]

/-- Witness for C3, scenario A end-to-end: base `B1` (id 1) defined for
key `kk` under the default flavour, extension `E1` (id 2) registered for
flavour `x`; a dispatch resolving to `x` invokes `[B1, E1]`, each exactly
once. -/
theorem c3_dispatch_order_witness :
    (do
      let b1 ← builderDefine (builderFor (newDecoration DefaultFlavour) "kk")
        [DecoratorData.fn 1]
      let reg1 ← builderApplyRegister [] b1
      let b2 ← builderExtend (builderFor (newDecoration "x") "kk")
        [DecoratorData.fn 2]
      builderApplyRegister reg1 b2) =
      Except.ok
        [("kk",
          [("decaf", FlavourBucket.mk (some [DecoratorData.fn 1]) none),
           ("x", FlavourBucket.mk (some []) (some [DecoratorData.fn 2]))])] ∧
    decoratorFactoryRun
        [("kk",
          [("decaf", FlavourBucket.mk (some [DecoratorData.fn 1]) none),
           ("x", FlavourBucket.mk (some []) (some [DecoratorData.fn 2]))])]
        "kk" "x" (fun _ => none) =
      Except.ok [Invoked.fnInv 1, Invoked.fnInv 2] ∧
    (∃ L,
      decoratorFactoryRun
          [("kk",
            [("decaf", FlavourBucket.mk (some [DecoratorData.fn 1]) none),
             ("x", FlavourBucket.mk (some []) (some [DecoratorData.fn 2]))])]
          "kk" "x" (fun _ => none) = Except.ok L ∧
      L.map invokedId =
        (claimBase
          [("decaf", FlavourBucket.mk (some [DecoratorData.fn 1]) none),
           ("x", FlavourBucket.mk (some []) (some [DecoratorData.fn 2]))]
          "x" (FlavourBucket.mk (some [DecoratorData.fn 1]) none)).map dataId
        ++
        (claimExtras
          [("decaf", FlavourBucket.mk (some [DecoratorData.fn 1]) none),
           ("x", FlavourBucket.mk (some []) (some [DecoratorData.fn 2]))]
          "x" (FlavourBucket.mk (some [DecoratorData.fn 1]) none)).map dataId)
    :=
  ⟨rfl, rfl,
    c3_dispatch_order _ "kk" "x" (fun _ => none) _
      (FlavourBucket.mk (some [DecoratorData.fn 1]) none) rfl rfl⟩

/-- C5 (code bug): calling `extend` on a builder bound to the default
flavour does not raise — `decorate` (src/src/decoration/Decoration.ts
lines 1431-1457) has no default-flavour guard on the addon path, while the
repository's own tests (src/tests/unit/Decoration.test.ts lines 29-34 and
a second copy) expect `/Default flavour cannot be extended/` to be
thrown.  The extension set is simply recorded. -/
theorem c5_extend_default_no_error :
    builderExtend (builderFor (newDecoration DefaultFlavour) "k")
        [DecoratorData.fn 7] =
      Except.ok
        ⟨DefaultFlavour, some "k", none,
          some (jsSetOfList [DecoratorData.fn 7])⟩ := rfl

/-- State relevant to the flavour registry of src/unnamed/part_010
(`assignFlavour`): each target's recorded flavour (the `flavour` key of
its metadata bucket, a single-segment path) and the shared bucket store at
`Symbol.for(DecorationKeys.FLAVOUR)` mapping a flavour name to the ordered
list of targets assigned to it.  Targets are canonical constructor
identities (`Metadata.constr` is the identity here, targets being already
canonical); flavour names are treated as atomic keys (a name containing
the `.` splitter would nest in the real store). -/
structure FlavourState where
  targetFlavour : List (Nat × String)
  buckets : List (String × List Nat)
deriving Repr, DecidableEq

/-- Model of `assignFlavour` (src/unnamed/part_010 lines 23-47): reads the
previous flavour (JS `||` falls back to the default for a missing or falsy
record), filters the target out of the previous bucket, stores the
filtered bucket, adds the target to a `Set` built from the new flavour's
bucket, stores it, and records the new flavour on the target. -/
def assignFlavour (st : FlavourState) (t : Nat) (flavour : String)
    (defaultFlavour : String) : FlavourState :=
  let previousFlavour :=
    match aGet st.targetFlavour t with
    | some f => if f = "" then defaultFlavour else f
    | none => defaultFlavour
  let previousBucket := (aGet st.buckets previousFlavour).getD []
  let filtered := previousBucket.filter (fun e => e != t)
  let buckets1 := aSet st.buckets previousFlavour filtered
  let nextBucket := jsSetAdd (jsSetOfList ((aGet buckets1 flavour).getD [])) t
  let buckets2 := aSet buckets1 flavour nextBucket
  { targetFlavour := aSet st.targetFlavour t flavour, buckets := buckets2 }

/-- Model of `Metadata.flavouredAs` (src/src/metadata/Metadata.ts lines
225-227): the current contents of a flavour's bucket, `[]` when absent. -/
def flavouredAs (st : FlavourState) (flavour : String) : List Nat :=
  (aGet st.buckets flavour).getD []

/-- C9: assigning a target recorded under `v1` to a different variant `v2`
removes it from `v1`'s bucket and appends it to `v2`'s bucket; provided
the target appeared in no other bucket beforehand (the registry's
invariant), it then appears in no bucket other than `v2`'s, and
`flavouredAs` returns the updated bucket contents with the target recorded
under `v2`. -/
theorem c9_assign_moves_target (st : FlavourState) (t : Nat) (v1 v2 : String)
    (hrec : aGet st.targetFlavour t = some v1)
    (hv1 : v1 ≠ "")
    (hne : v1 ≠ v2)
    (hinv : ∀ f, f ≠ v1 → t ∉ (aGet st.buckets f).getD []) :
    t ∉ flavouredAs (assignFlavour st t v2 DefaultFlavour) v1 ∧
    flavouredAs (assignFlavour st t v2 DefaultFlavour) v2 =
      jsSetOfList ((aGet st.buckets v2).getD []) ++ [t] ∧
    t ∈ flavouredAs (assignFlavour st t v2 DefaultFlavour) v2 ∧
    (∀ f, f ≠ v2 → t ∉ flavouredAs (assignFlavour st t v2 DefaultFlavour) f) ∧
    aGet (assignFlavour st t v2 DefaultFlavour).targetFlavour t = some v2 := by
  have hprev :
      (match aGet st.targetFlavour t with
        | some f => if f = "" then DefaultFlavour else f
        | none => DefaultFlavour) = v1 := by
    rw [hrec]
    simp [hv1]
  rw [assignFlavour]
  simp only [hprev]
  set filtered := ((aGet st.buckets v1).getD []).filter (fun e => e != t)
    with hfiltered
  set buckets1 := aSet st.buckets v1 filtered with hb1
  have hb1v2 : aGet buckets1 v2 = aGet st.buckets v2 :=
    aGet_aSet_ne _ _ (fun h => hne h.symm)
  have htnotold : t ∉ jsSetOfList ((aGet st.buckets v2).getD []) := by
    rw [mem_jsSetOfList]
    exact hinv v2 (fun h => hne h.symm)
  have hnext : jsSetAdd (jsSetOfList ((aGet buckets1 v2).getD [])) t =
      jsSetOfList ((aGet st.buckets v2).getD []) ++ [t] := by
    rw [hb1v2, jsSetAdd, if_neg htnotold]
  refine ⟨?_, ?_, ?_, ?_, ?_⟩
  · rw [flavouredAs]
    simp only
    rw [aGet_aSet_ne _ _ hne, hb1]
    rw [aGet_aSet_self]
    simp only [Option.getD_some, hfiltered]
    intro hmem
    have := List.mem_filter.mp hmem
    simp at this
  · rw [flavouredAs]
    simp only
    rw [aGet_aSet_self]
    simp only [Option.getD_some]
    exact hnext
  · rw [flavouredAs]
    simp only
    rw [aGet_aSet_self]
    simp only [Option.getD_some]
    rw [hnext]
    simp
  · intro f hf
    rw [flavouredAs]
    simp only
    rw [aGet_aSet_ne _ _ hf]
    by_cases hfv1 : f = v1
    · subst hfv1
      rw [hb1, aGet_aSet_self]
      simp only [Option.getD_some, hfiltered]
      intro hmem
      have := List.mem_filter.mp hmem
      simp at this
    · rw [hb1, aGet_aSet_ne _ _ hfv1]
      exact hinv f hfv1
  · exact aGet_aSet_self _ _ _

/-- Witness for C9: target 7 recorded under `decaf` and present only in
the `decaf` bucket moves to `web`. -/
theorem c9_assign_moves_target_witness :
    7 ∉ flavouredAs
        (assignFlavour ⟨[(7, "decaf")], [("decaf", [7])]⟩ 7 "web"
          DefaultFlavour) "decaf" ∧
    flavouredAs
        (assignFlavour ⟨[(7, "decaf")], [("decaf", [7])]⟩ 7 "web"
          DefaultFlavour) "web" =
      jsSetOfList ((aGet [("decaf", [7])] "web").getD []) ++ [7] ∧
    7 ∈ flavouredAs
        (assignFlavour ⟨[(7, "decaf")], [("decaf", [7])]⟩ 7 "web"
          DefaultFlavour) "web" ∧
    (∀ f, f ≠ "web" →
      7 ∉ flavouredAs
        (assignFlavour ⟨[(7, "decaf")], [("decaf", [7])]⟩ 7 "web"
          DefaultFlavour) f) ∧
    aGet
        (assignFlavour ⟨[(7, "decaf")], [("decaf", [7])]⟩ 7 "web"
          DefaultFlavour).targetFlavour 7 = some "web" :=
  c9_assign_moves_target ⟨[(7, "decaf")], [("decaf", [7])]⟩ 7 "decaf" "web"
    (by rfl) (by decide) (by decide)
    (by
      intro f hf
      show 7 ∉ (aGet [("decaf", [7])] f).getD []
      rw [aGet, if_neg (fun h => hf h.symm)]
      simp [aGet])

/-- The `properties` metadata key (`DecorationKeys.PROPERTIES`,
src/src/constants.ts line 41). -/
def PropertiesKey : String := "properties"

/-- One entry of a recorded metadata diff (`MetadataDiffEntry`,
src/src/decoration/Decoration.ts lines 848-852): `previous = some v`
stands for `{previousValue: v, existed: true}`, `none` for a path that did
not previously exist. -/
structure MetadataDiffEntry where
  path : List String
  previous : Option Val
deriving Repr

theorem sizeOf_aGet_le {l : List (String × Val)} {k : String} :
    sizeOf (aGet l k) ≤ sizeOf l := by
  induction l with
  | nil => simp [aGet]
  | cons e r ih =>
    cases e with
    | mk k' v =>
      rw [aGet]
      by_cases h : k' = k
      · rw [if_pos h]
        simp
        omega
      · rw [if_neg h]
        simp
        omega

mutual
/-- Model of `diffMetadataBuckets` (src/src/decoration/Decoration.ts lines
893-955).  The source accumulates absolute paths through a `basePath`
argument; here each level emits its entries and prefixes them through
`diffKeys`' `base ++ [k]`, which produces the same list.  An undefined
`before` is the empty object (same keys, same lookups). -/
def diffObjects (before after : List (String × Val)) (base : List String) :
    List MetadataDiffEntry :=
  diffKeys before after (jsSetOfList (aKeys before ++ aKeys after)) base
termination_by (sizeOf before + sizeOf after,
  (jsSetOfList (aKeys before ++ aKeys after)).length + 1)
decreasing_by
  simp_wf
  exact Prod.Lex.right _ (by omega)

/-- The `keys.forEach` loop of `diffMetadataBuckets`: one `diffKey` per
key of the deduplicated union, in order. -/
def diffKeys (before after : List (String × Val)) (keys : List String)
    (base : List String) : List MetadataDiffEntry :=
  match keys with
  | [] => []
  | k :: rest =>
    diffKey (aGet before k) (aGet after k) (base ++ [k]) ++
      diffKeys before after rest base
termination_by (sizeOf before + sizeOf after, keys.length)
decreasing_by
  · simp_wf
    have h1 : sizeOf (aGet before k) ≤ sizeOf before := sizeOf_aGet_le
    have h2 : sizeOf (aGet after k) ≤ sizeOf after := sizeOf_aGet_le
    rcases Nat.lt_or_ge (sizeOf (aGet before k) + sizeOf (aGet after k))
      (sizeOf before + sizeOf after) with h | h
    · exact Prod.Lex.left _ _ h
    · have he : sizeOf (aGet before k) + sizeOf (aGet after k) =
          sizeOf before + sizeOf after := by omega
      rw [he]
      exact Prod.Lex.right _ (by omega)
  · simp_wf
    exact Prod.Lex.right _ (by omega)

/-- One key's comparison in `diffMetadataBuckets`: a removed key is
recorded with its cloned previous value; an added plain object recurses
(an added non-object is recorded with `existed: false`); two plain
objects recurse; equal primitives record nothing; any other pair records
the cloned previous value.  The code compares snapshots with `!==`:
primitives compare by value, while two separately-cloned arrays are never
identical, so an array pair is always recorded (reverting then restores an
equal value). -/
def diffKey (prev next : Option Val) (path : List String) :
    List MetadataDiffEntry :=
  match prev, next with
  | none, none => []
  | some p, none => [⟨path, some (cloneDeep p)⟩]
  | none, some n =>
    match n with
    | Val.obj nl => diffObjects [] nl path
    | _ => [⟨path, none⟩]
  | some p, some n =>
    match p, n with
    | Val.obj pl, Val.obj nl => diffObjects pl nl path
    | Val.prim a, Val.prim b =>
      if a = b then [] else [⟨path, some (cloneDeep (Val.prim a))⟩]
    | _, _ => [⟨path, some (cloneDeep p)⟩]
termination_by (sizeOf prev + sizeOf next, 0)
decreasing_by
  all_goals simp_wf
  all_goals (apply Prod.Lex.left; first | omega | (simp; omega))
end

/-- The delete-and-prune step of `revertMetadataDiff`
(src/src/decoration/Decoration.ts lines 1846-1864 together with
`pruneEmptyAncestors`, lines 986-1003): walk the path (non-object
intermediates are replaced with `{}` by the walk), delete the final key,
then delete every ancestor container that is left an empty plain object,
bottom-up, stopping at the first non-empty one.  The recursion computes the
same result level by level: a child list left empty after the deeper
delete-and-prune is pruned here. -/
def revertDelete (l : List (String × Val)) : List String → List (String × Val)
  | [] => l
  | [k] => aDel l k
  | k :: k1 :: ks =>
    let child := childEntries (aGet l k)
    let child2 := revertDelete child (k1 :: ks)
    if child2.isEmpty then aDel l k else aSet l k (Val.obj child2)

/-- One `diff.forEach` iteration of `revertMetadataDiff`
(src/src/decoration/Decoration.ts lines 1846-1864): an empty path is
skipped, a path starting at the `properties` key is skipped, a
non-existed path is deleted (with ancestor pruning), an existed path is
restored to a clone of its previous value through the same walk as
`setValueBySplitter`. -/
def revertOnePath (bucket : List (String × Val)) (path : List String)
    (previous : Option Val) : List (String × Val) :=
  match path with
  | [] => bucket
  | k :: _ =>
    if k = PropertiesKey then bucket
    else
      match previous with
      | none => revertDelete bucket path
      | some p => setPathRaw bucket path (cloneDeep p)

def revertOne (bucket : List (String × Val)) (e : MetadataDiffEntry) :
    List (String × Val) :=
  revertOnePath bucket e.path e.previous

/-- Model of `revertMetadataDiff` (src/src/decoration/Decoration.ts lines
1831-1865) on a target's bucket: processes the recorded entries in
order.  An empty diff leaves the bucket unchanged (the `!diff.length`
early return). -/
def revertMetadataDiff (bucket : List (String × Val))
    (d : List MetadataDiffEntry) : List (String × Val) :=
  d.foldl revertOne bucket

/-- A target's store state: its metadata bucket (`Metadata._metadata`) and
its properties index (`Metadata._propertiesIndex`, a set of recorded
property key paths). -/
structure MetaState where
  bucket : List (String × Val)
  propsIndex : List String
deriving Repr

/-- `revertMetadataDiff` at state level: the source function reads and
writes only the `_metadata` store, so the properties index component is
exactly that of the input state. -/
def revertMetadataDiffState (st : MetaState) (d : List MetadataDiffEntry) :
    MetaState :=
  ⟨revertMetadataDiff st.bucket d, st.propsIndex⟩

theorem aGet_aDel_ne {l : List (String × Val)} {kd k : String}
    (h : ¬ kd = k) : aGet (aDel l kd) k = aGet l k := by
  induction l with
  | nil => rfl
  | cons e r ih =>
    cases e with
    | mk k0 v =>
      have hstep : aDel ((k0, v) :: r) kd =
          (if (k0 != kd) = true then (k0, v) :: aDel r kd else aDel r kd) := by
        rw [aDel, List.filter_cons]
        rfl
      rw [hstep]
      by_cases h0 : k0 = kd
      · have hb : (k0 != kd) = false := by simp [h0]
        rw [hb]
        simp only [Bool.false_eq_true, if_false]
        have hk0 : ¬ k0 = k := by rw [h0]; exact h
        rw [aGet, if_neg hk0]
        exact ih
      · have hb : (k0 != kd) = true := by simp [h0]
        rw [hb, if_pos rfl]
        rw [aGet, aGet]
        by_cases h1 : k0 = k
        · simp [h1]
        · simp only [if_neg h1]
          exact ih

theorem aGet_setPathRaw_ne (p : List String) (l : List (String × Val))
    (v : Val) {k : String} (h : p.head? ≠ some k) :
    aGet (setPathRaw l p v) k = aGet l k := by
  cases p with
  | nil => rfl
  | cons k0 ks =>
    have hk0 : ¬ k = k0 := fun hh => h (by simp [hh])
    cases ks with
    | nil => rw [setPathRaw_single]; exact aGet_aSet_ne _ _ hk0
    | cons k1 ks1 => rw [setPathRaw_cons]; exact aGet_aSet_ne _ _ hk0

theorem aGet_revertDelete_ne (p : List String) (l : List (String × Val))
    {k : String} (h : p.head? ≠ some k) :
    aGet (revertDelete l p) k = aGet l k := by
  cases p with
  | nil => rfl
  | cons k0 ks =>
    have hk0 : ¬ k0 = k := fun hh => h (by simp [hh])
    cases ks with
    | nil =>
      show aGet (aDel l k0) k = aGet l k
      exact aGet_aDel_ne hk0
    | cons k1 ks1 =>
      rw [revertDelete]
      by_cases hc : (revertDelete (childEntries (aGet l k0)) (k1 :: ks1)).isEmpty
      · simp only [hc, if_true]
        exact aGet_aDel_ne hk0
      · simp only [hc, Bool.false_eq_true, if_false]
        exact aGet_aSet_ne _ _ (fun hh => hk0 hh.symm)

theorem revertOne_cons (bucket : List (String × Val))
    (e : MetadataDiffEntry) (k0 : String) (rest : List String)
    (hp : e.path = k0 :: rest) :
    revertOne bucket e =
      (if k0 = PropertiesKey then bucket
       else
         match e.previous with
         | none => revertDelete bucket (k0 :: rest)
         | some p => setPathRaw bucket (k0 :: rest) (cloneDeep p)) := by
  rw [revertOne, hp, revertOnePath.eq_def]

theorem aGet_revertOne_ne (bucket : List (String × Val))
    (e : MetadataDiffEntry) {k : String} (h : e.path.head? ≠ some k) :
    aGet (revertOne bucket e) k = aGet bucket k := by
  rcases hp : e.path with _ | ⟨k0, rest⟩
  · rw [revertOne, hp, revertOnePath.eq_def]
  · rw [hp] at h
    rw [revertOne_cons bucket e k0 rest hp]
    by_cases hpk : k0 = PropertiesKey
    · rw [if_pos hpk]
    · rw [if_neg hpk]
      rcases e.previous with _ | p
      · exact aGet_revertDelete_ne _ _ h
      · exact aGet_setPathRaw_ne _ _ _ h

/-- C10: reverting a recorded metadata diff never touches the `properties`
subtree of the bucket — entries whose path begins at the `properties` key
are skipped, and every other entry only rewrites its own top-level key —
and the side properties index is untouched (the source function only
reads and writes the `_metadata` store), so design-type entries and the
index written during a provisional run survive rollback. -/
theorem c10_revert_preserves_properties (st : MetaState)
    (d : List MetadataDiffEntry) :
    aGet (revertMetadataDiffState st d).bucket PropertiesKey =
      aGet st.bucket PropertiesKey ∧
    (revertMetadataDiffState st d).propsIndex = st.propsIndex := by
  constructor
  · show aGet (revertMetadataDiff st.bucket d) PropertiesKey =
      aGet st.bucket PropertiesKey
    rw [revertMetadataDiff]
    induction d generalizing st with
    | nil => rfl
    | cons e rest ih =>
      rw [List.foldl_cons]
      have hstep : aGet (revertOne st.bucket e) PropertiesKey =
          aGet st.bucket PropertiesKey := by
        rcases hp : e.path with _ | ⟨k0, r⟩
        · rw [revertOne, hp, revertOnePath.eq_def]
        · by_cases hk : k0 = PropertiesKey
          · rw [revertOne_cons st.bucket e k0 r hp, if_pos hk]
          · apply aGet_revertOne_ne
            rw [hp]
            intro hh
            exact hk (by simpa using hh)
      rw [← hstep]
      exact ih ⟨revertOne st.bucket e, st.propsIndex⟩
  · rfl

/-- Applies a list of metadata writes (`Metadata.set` path/value pairs)
to a bucket, in order. -/
def applyWrites (bucket : List (String × Val))
    (ws : List (List String × Val)) : List (String × Val) :=
  ws.foldl (fun b w => setValueBySplitter b w.1 w.2) bucket

/-- A queued pending entry as the replay loop observes it
(`PendingDecorator`, src/src/decoration/Decoration.ts lines 1005-1023):
its identity, the metadata writes its invocation performs before possibly
throwing, whether it throws, and the pass-guard field. -/
structure QueueEntry where
  id : Nat
  writes : List (List String × Val)
  throws : Bool
  lastAppliedPass : Option Nat
deriving Repr

/-- The outcome of a replay pass: the bucket, the errors reported through
`console.error`, and the entries invoked, in order. -/
structure ReplayResult where
  bucket : List (String × Val)
  reported : List Nat
  invoked : List Nat
deriving Repr

/-- Model of `applyPendingEntry`'s try/catch (src/src/decoration/
Decoration.ts lines 1141-1214) for the queue analysis: the invocation
performs its metadata writes (those executed before a throw), and a
thrown error is caught and reported via `console.error` instead of
propagating. -/
def applyPendingEntryCaught (bucket : List (String × Val))
    (reported : List Nat) (e : QueueEntry) :
    List (String × Val) × List Nat :=
  let b2 := applyWrites bucket e.writes
  if e.throws then (b2, reported ++ [e.id]) else (b2, reported)

/-- Model of the replay loop of `resolvePendingDecorators`
(src/src/decoration/Decoration.ts lines 1384-1394, and the same guard in
the finalize branch at lines 1352-1383): entries already applied in the
current pass are skipped, every other entry is invoked through the
catching `applyPendingEntry`, and the loop always runs to the end of the
queue. -/
def replayQueue (bucket : List (String × Val)) (reported invoked : List Nat)
    (entries : List QueueEntry) (currentPass : Nat) : ReplayResult :=
  match entries with
  | [] => ⟨bucket, reported, invoked⟩
  | e :: rest =>
    if e.lastAppliedPass = some currentPass then
      replayQueue bucket reported invoked rest currentPass
    else
      let r := applyPendingEntryCaught bucket reported e
      replayQueue r.1 r.2 (invoked ++ [e.id]) rest currentPass

theorem replayQueue_spec (entries : List QueueEntry) :
    ∀ (bucket : List (String × Val)) (reported invoked : List Nat)
      (pass : Nat),
      (∀ e ∈ entries, e.lastAppliedPass ≠ some pass) →
      (replayQueue bucket reported invoked entries pass).invoked =
        invoked ++ entries.map QueueEntry.id ∧
      (replayQueue bucket reported invoked entries pass).reported =
        reported ++ (entries.filter (fun e => e.throws)).map QueueEntry.id
    := by
  induction entries with
  | nil => intro bucket reported invoked pass _; simp [replayQueue]
  | cons e rest ih =>
    intro bucket reported invoked pass hfresh
    rw [replayQueue]
    rw [if_neg (hfresh e (List.mem_cons_self e rest))]
    have hrest := ih (applyPendingEntryCaught bucket reported e).1
      (applyPendingEntryCaught bucket reported e).2 (invoked ++ [e.id]) pass
      (fun x hx => hfresh x (List.mem_cons_of_mem e hx))
    constructor
    · rw [hrest.1]
      simp
    · rw [hrest.2]
      rw [applyPendingEntryCaught]
      by_cases ht : e.throws
      · simp [ht]
      · simp [ht]

/-- C8: during a resolution pass, a queued entry whose invocation throws
has the error caught and reported (never rethrown), and every remaining
queued entry of the owner is still invoked: the pass invokes every entry
not already applied in this pass, in order, and reports exactly the
throwing ones. -/
theorem c8_failure_isolation (entries : List QueueEntry)
    (bucket : List (String × Val)) (pass : Nat)
    (hfresh : ∀ e ∈ entries, e.lastAppliedPass ≠ some pass) :
    (replayQueue bucket [] [] entries pass).invoked =
      entries.map QueueEntry.id ∧
    (replayQueue bucket [] [] entries pass).reported =
      (entries.filter (fun e => e.throws)).map QueueEntry.id := by
  have h := replayQueue_spec entries bucket [] [] pass hfresh
  simpa using h

/-- Witness for C8: three entries, the middle one throwing; all three are
invoked and exactly the middle one is reported. -/
theorem c8_failure_isolation_witness :
    (replayQueue [] [] []
        [⟨1, [(["a"], Val.prim "1")], false, none⟩,
         ⟨2, [(["b"], Val.prim "2")], true, none⟩,
         ⟨3, [(["c"], Val.prim "3")], false, none⟩] 1).invoked =
      [1, 2, 3] ∧
    (replayQueue [] [] []
        [⟨1, [(["a"], Val.prim "1")], false, none⟩,
         ⟨2, [(["b"], Val.prim "2")], true, none⟩,
         ⟨3, [(["c"], Val.prim "3")], false, none⟩] 1).reported = [2] :=
  c8_failure_isolation _ [] 1 (by decide)


/- A metadata value is solid when every plain object inside it is non-empty
with unique keys.  Values written by decorators are solid (JS objects have
unique keys; the diff records every leaf of a solid added subtree, so
reverting removes it completely, whereas an added empty object leaves no
diff entry). -/
mutual
def solidVal : Val → Bool
  | Val.prim _ => true
  | Val.arr _ => true
  | Val.obj l => !l.isEmpty && decide (keysNodup l) && solidValEntries l

def solidValEntries : List (String × Val) → Bool
  | [] => true
  | (_, v) :: r => solidVal v && solidValEntries r
end

theorem solidValEntries_mem {l : List (String × Val)}
    (h : solidValEntries l = true) : ∀ e ∈ l, solidVal e.2 = true := by
  induction l with
  | nil => intro e he; cases he
  | cons a r ih =>
    cases a with
    | mk k v =>
      rw [solidValEntries] at h
      simp only [Bool.and_eq_true] at h
      intro e he
      rcases List.mem_cons.mp he with h1 | h2
      · subst h1
        exact h.1
      · exact ih h.2 e h2

theorem solidVal_obj {l : List (String × Val)}
    (h : solidVal (Val.obj l) = true) :
    l ≠ [] ∧ keysNodup l ∧ ∀ e ∈ l, solidVal e.2 = true := by
  rw [solidVal] at h
  simp only [Bool.and_eq_true] at h
  refine ⟨?_, of_decide_eq_true h.1.2, solidValEntries_mem h.2⟩
  intro hnil
  subst hnil
  simp at h

theorem aSet_ne_nil {κ α : Type} [DecidableEq κ] (l : List (κ × α)) (k : κ)
    (v : α) : aSet l k v ≠ [] := by
  cases l with
  | nil => simp [aSet]
  | cons e r =>
    cases e with
    | mk k0 w =>
      rw [aSet]
      by_cases h : k0 = k <;> simp [h]

theorem aGet_aDel_self {l : List (String × Val)} {k : String} :
    aGet (aDel l k) k = none := by
  apply aGet_eq_none_of_not_mem
  intro hmem
  rcases List.mem_map.mp hmem with ⟨e, he, hk⟩
  have := List.of_mem_filter he
  rw [hk] at this
  simp at this

theorem aDel_aSet_self {l : List (String × Val)} {k : String} {v : Val} :
    aDel (aSet l k v) k = aDel l k := by
  induction l with
  | nil => simp [aSet, aDel]
  | cons e r ih =>
    cases e with
    | mk k0 w =>
      by_cases h : k0 = k
      · subst h
        simp [aSet, aDel, List.filter_cons]
      · simp only [aSet, if_neg h, aDel, List.filter_cons] at ih ⊢
        simp [h, ih]

theorem aSet_aSet_self {l : List (String × Val)} {k : String} {v w : Val} :
    aSet (aSet l k v) k w = aSet l k w := by
  induction l with
  | nil => simp [aSet]
  | cons e r ih =>
    cases e with
    | mk k0 u =>
      by_cases h : k0 = k
      · subst h
        simp [aSet]
      · simp [aSet, if_neg h, ih]


theorem mem_aSet {κ α : Type} [DecidableEq κ] {l : List (κ × α)} {k : κ}
    {v : α} {e : κ × α} (h : e ∈ aSet l k v) : e ∈ l ∨ e.1 = k := by
  induction l with
  | nil =>
    simp [aSet] at h
    subst h
    simp
  | cons a r ih =>
    cases a with
    | mk k0 w =>
      rw [aSet] at h
      by_cases hk : k0 = k
      · rw [if_pos hk] at h
        rcases List.mem_cons.mp h with h1 | h2
        · right; rw [h1]
        · left; exact List.mem_cons_of_mem _ h2
      · rw [if_neg hk] at h
        rcases List.mem_cons.mp h with h1 | h2
        · left; exact h1 ▸ List.mem_cons_self _ _
        · rcases ih h2 with h3 | h3
          · left; exact List.mem_cons_of_mem _ h3
          · right; exact h3

theorem keysNodup_aSet {α : Type} {l : List (String × α)} {k : String}
    {v : α} (h : keysNodup l) : keysNodup (aSet l k v) := by
  induction l with
  | nil => simp [aSet, keysNodup]
  | cons e r ih =>
    cases e with
    | mk k0 w =>
      rw [keysNodup, List.map_cons, List.nodup_cons] at h
      by_cases hk : k0 = k
      · subst hk
        rw [aSet, if_pos rfl, keysNodup, List.map_cons, List.nodup_cons]
        exact h
      · rw [aSet, if_neg hk, keysNodup, List.map_cons, List.nodup_cons]
        constructor
        · intro hmem
          rcases List.mem_map.mp hmem with ⟨e, he, hke⟩
          rcases mem_aSet he with hem | hek
          · exact h.1 (hke ▸ List.mem_map_of_mem _ hem)
          · exact hk (by rw [hek] at hke; exact hke.symm)
        · exact ih h.2

theorem keysNodup_aDel {α : Type} {l : List (String × α)} {k : String}
    (h : keysNodup l) : keysNodup (aDel l k) := by
  rw [keysNodup]
  exact ((List.filter_sublist l).map Prod.fst).nodup h

theorem jsSetAdd_nodup {α : Type} [DecidableEq α] {l : List α} {a : α}
    (h : l.Nodup) : (jsSetAdd l a).Nodup := by
  rw [jsSetAdd]
  by_cases hm : a ∈ l
  · rw [if_pos hm]; exact h
  · rw [if_neg hm]
    apply List.Nodup.append h (List.nodup_singleton a)
    intro x hx hxa
    rw [List.mem_singleton] at hxa
    subst hxa
    exact hm hx

theorem jsSetOfList_nodup {α : Type} [DecidableEq α] (l : List α) :
    (jsSetOfList l).Nodup := by
  have key : ∀ (m : List α) (acc : List α), acc.Nodup →
      (m.foldl jsSetAdd acc).Nodup := by
    intro m
    induction m with
    | nil => intro acc h; exact h
    | cons a r ih =>
      intro acc h
      rw [List.foldl_cons]
      exact ih _ (jsSetAdd_nodup h)
  exact key l [] List.nodup_nil

theorem jsSetOfList_eq_self {α : Type} [DecidableEq α] {l : List α}
    (h : l.Nodup) : jsSetOfList l = l := by
  have key : ∀ (m : List α) (acc : List α), (acc ++ m).Nodup →
      m.foldl jsSetAdd acc = acc ++ m := by
    intro m
    induction m with
    | nil => intro acc _; simp
    | cons a r ih =>
      intro acc hnd
      rw [List.foldl_cons]
      have ha : a ∉ acc := by
        intro hmem
        exact (List.disjoint_of_nodup_append hnd) hmem (by simp)
      rw [jsSetAdd, if_neg ha]
      have hnd2 : ((acc ++ [a]) ++ r).Nodup := by
        simpa [List.append_assoc] using hnd
      rw [ih (acc ++ [a]) hnd2]
      simp
  have := key l [] (by simpa using h)
  simpa [jsSetOfList] using this

/-- Prefixing a diff entry path, relating the absolute `basePath` the
source accumulates to the entry path relative to the current level. -/
def shiftE (q : List String) (e : MetadataDiffEntry) : MetadataDiffEntry :=
  ⟨q ++ e.path, e.previous⟩

/-- The `basePath` argument of `diffMetadataBuckets` is a pure prefix:
the diff at base `q` is the diff at base `[]` with `q` prepended to every
recorded path. -/
theorem diffKey_shift (p n : Option Val) (q : List String) :
    diffKey p n q = (diffKey p n []).map (shiftE q) := by
  refine diffKey.induct
    (fun b a _ => ∀ r, diffObjects b a r = (diffObjects b a []).map (shiftE r))
    (fun b a keys _ => ∀ r,
      diffKeys b a keys r = (diffKeys b a keys []).map (shiftE r))
    (fun p n _ => ∀ r, diffKey p n r = (diffKey p n []).map (shiftE r))
    ?_ ?_ ?_ ?_ ?_ ?_ ?_ ?_ ?_ ?_ ?_ p n [] q
  · intro b a base ih r
    rw [diffObjects, diffObjects]
    exact ih r
  · intro b a base r
    rw [diffKeys, diffKeys]
    rfl
  · intro b a base k rest ih3 ih2 r
    rw [diffKeys, diffKeys, ih3 (r ++ [k]), ih3 ([] ++ [k]), ih2 r,
      List.map_append, List.map_map]
    congr 1
    apply List.map_congr_left
    intro e _
    simp [shiftE]
  · intro path r
    rw [diffKey, diffKey]
    rfl
  · intro path p r
    simp [diffKey, shiftE]
  · intro path nl ih r
    have h1 : diffKey none (some (Val.obj nl)) r = diffObjects [] nl r := by
      rw [diffKey]
    have h2 : diffKey none (some (Val.obj nl)) [] = diffObjects [] nl [] := by
      rw [diffKey]
    rw [h1, h2]
    exact ih r
  · intro path n hn r
    cases n with
    | prim s => simp [diffKey, shiftE]
    | arr l => simp [diffKey, shiftE]
    | obj nl => exact absurd rfl (hn nl)
  · intro path pl nl ih r
    have h1 : diffKey (some (Val.obj pl)) (some (Val.obj nl)) r =
        diffObjects pl nl r := by rw [diffKey]
    have h2 : diffKey (some (Val.obj pl)) (some (Val.obj nl)) [] =
        diffObjects pl nl [] := by rw [diffKey]
    rw [h1, h2]
    exact ih r
  · intro path b r
    simp [diffKey, shiftE]
  · intro path a b hab r
    simp [diffKey, shiftE, hab]
  · intro path p n h1 h2 r
    cases p with
    | prim a =>
      cases n with
      | prim b => exact (h2 a b rfl rfl).elim
      | arr l => simp [diffKey, shiftE]
      | obj nl => simp [diffKey, shiftE]
    | arr l =>
      cases n with
      | prim b => simp [diffKey, shiftE]
      | arr l2 => simp [diffKey, shiftE]
      | obj nl => simp [diffKey, shiftE]
    | obj pl =>
      cases n with
      | prim b => simp [diffKey, shiftE]
      | arr l2 => simp [diffKey, shiftE]
      | obj nl => exact (h1 pl nl rfl rfl).elim

/-- The diff entries rooted at top-level key `k`, with that key stripped:
what `revertMetadataDiff` will do inside the `k` child. -/
def revTailsFor (k : String) : List MetadataDiffEntry →
    List (List String × Option Val)
  | [] => []
  | e :: d =>
    match e.path with
    | [] => revTailsFor k d
    | k0 :: ks =>
      if k0 = k then (ks, e.previous) :: revTailsFor k d
      else revTailsFor k d

/-- A diff as a list of (path, previous) actions. -/
def mapTails (d : List MetadataDiffEntry) : List (List String × Option Val) :=
  d.map (fun e => (e.path, e.previous))

theorem revTailsFor_append (k : String) (d1 d2 : List MetadataDiffEntry) :
    revTailsFor k (d1 ++ d2) = revTailsFor k d1 ++ revTailsFor k d2 := by
  induction d1 with
  | nil => rfl
  | cons e rest ih =>
    cases e with
    | mk pth prev =>
      rcases pth with _ | ⟨k0, ks⟩
      · simp only [List.cons_append, revTailsFor]
        exact ih
      · simp only [List.cons_append, revTailsFor, List.append_eq]
        by_cases h : k0 = k
        · rw [if_pos h, if_pos h, ih, List.cons_append]
        · rw [if_neg h, if_neg h, ih]

theorem revTailsFor_map_shift (k k0 : String) (d : List MetadataDiffEntry) :
    revTailsFor k (d.map (shiftE [k0])) =
      if k0 = k then mapTails d else [] := by
  induction d with
  | nil => by_cases h : k0 = k <;> simp [revTailsFor, mapTails, h]
  | cons e rest ih =>
    have hsh : shiftE [k0] e = ⟨k0 :: e.path, e.previous⟩ := rfl
    rw [List.map_cons, hsh]
    simp only [revTailsFor]
    by_cases h : k0 = k
    · rw [if_pos h] at ih
      rw [if_pos h, ih, if_pos h]
      rfl
    · rw [if_neg h] at ih
      rw [if_neg h, ih, if_neg h]

/-- Projection of a recorded diff to one top-level key: the entries under
key `k` are exactly the diff of the two values at `k`, relative to that
child. -/
theorem revTailsFor_diffObjects (b0 b1 : List (String × Val)) (k : String) :
    revTailsFor k (diffObjects b0 b1 []) =
      mapTails (diffKey (aGet b0 k) (aGet b1 k) []) := by
  rw [diffObjects]
  have aux : ∀ keys : List String, keys.Nodup →
      revTailsFor k (diffKeys b0 b1 keys []) =
        if k ∈ keys then mapTails (diffKey (aGet b0 k) (aGet b1 k) [])
        else [] := by
    intro keys
    induction keys with
    | nil =>
      intro _
      rw [diffKeys]
      simp [revTailsFor]
    | cons k0 rest ih =>
      intro hnd
      rw [List.nodup_cons] at hnd
      rw [diffKeys, revTailsFor_append]
      have hshift : diffKey (aGet b0 k0) (aGet b1 k0) ([] ++ [k0]) =
          (diffKey (aGet b0 k0) (aGet b1 k0) []).map (shiftE [k0]) :=
        diffKey_shift _ _ _
      rw [hshift, revTailsFor_map_shift, ih hnd.2]
      by_cases h : k0 = k
      · subst h
        have hnr : k0 ∉ rest := hnd.1
        rw [if_pos rfl, if_neg hnr, if_pos (List.mem_cons_self _ _)]
        simp
      · rw [if_neg h]
        have hne : ¬ k = k0 := fun hh => h hh.symm
        by_cases h2 : k ∈ rest
        · rw [if_pos h2, if_pos (List.mem_cons_of_mem _ h2)]
          simp
        · have hnc : k ∉ k0 :: rest := by
            intro hm
            rcases List.mem_cons.mp hm with hm1 | hm2
            · exact hne hm1
            · exact h2 hm2
          rw [if_neg h2, if_neg hnc]
          simp
  rw [aux _ (jsSetOfList_nodup _)]
  by_cases hmem : k ∈ jsSetOfList (aKeys b0 ++ aKeys b1)
  · rw [if_pos hmem]
  · rw [if_neg hmem]
    rw [mem_jsSetOfList, List.mem_append] at hmem
    push_neg at hmem
    have h0 : aGet b0 k = none := aGet_eq_none_of_not_mem hmem.1
    have h1 : aGet b1 k = none := aGet_eq_none_of_not_mem hmem.2
    rw [h0, h1, diffKey]
    rfl

/-- The effect of one non-skipped revert entry on the value sitting at its
top-level key: restore a clone of the previous value through the raw walk,
or delete (with ancestor pruning) when the path did not exist before. -/
def revertTailAction (o : Option Val) (ks : List String)
    (previous : Option Val) : Option Val :=
  match previous with
  | some p =>
    match ks with
    | [] => some (cloneDeep p)
    | _ :: _ => some (Val.obj (setPathRaw (childEntries o) ks (cloneDeep p)))
  | none =>
    match ks with
    | [] => none
    | _ :: _ =>
      let m := revertDelete (childEntries o) ks
      if m.isEmpty then none else some (Val.obj m)

/-- Folds a list of key-relative revert actions over one binding. -/
def runRevTails (o : Option Val) (ts : List (List String × Option Val)) :
    Option Val :=
  ts.foldl (fun o t => revertTailAction o t.1 t.2) o

theorem aGet_revertOne_head (bucket : List (String × Val))
    (e : MetadataDiffEntry) (k : String) (ks : List String)
    (hp : e.path = k :: ks) (hk : k ≠ PropertiesKey) :
    aGet (revertOne bucket e) k =
      revertTailAction (aGet bucket k) ks e.previous := by
  rw [revertOne_cons bucket e k ks hp, if_neg hk]
  rcases hprev : e.previous with _ | p
  · cases ks with
    | nil =>
      show aGet (aDel bucket k) k = _
      rw [aGet_aDel_self]
      rfl
    | cons k1 ks1 =>
      rw [revertDelete]
      by_cases hc : (revertDelete (childEntries (aGet bucket k))
          (k1 :: ks1)).isEmpty
      · rw [if_pos hc, aGet_aDel_self, revertTailAction]
        rw [if_pos hc]
      · rw [if_neg hc, aGet_aSet_self, revertTailAction]
        rw [if_neg hc]
  · cases ks with
    | nil =>
      show aGet (setPathRaw bucket [k] (cloneDeep p)) k =
        revertTailAction (aGet bucket k) [] (some p)
      rw [setPathRaw_single, aGet_aSet_self]
      rfl
    | cons k1 ks1 =>
      show aGet (setPathRaw bucket (k :: k1 :: ks1) (cloneDeep p)) k =
        revertTailAction (aGet bucket k) (k1 :: ks1) (some p)
      rw [setPathRaw_cons, aGet_aSet_self]
      rfl

/-- Projection of `revertMetadataDiff` to one top-level key other than
`properties`: the binding at `k` after the revert is the fold of the
key-relative revert actions recorded under `k`. -/
theorem aGet_revertMetadataDiff (d : List MetadataDiffEntry)
    (bucket : List (String × Val)) {k : String} (hk : k ≠ PropertiesKey) :
    aGet (revertMetadataDiff bucket d) k =
      runRevTails (aGet bucket k) (revTailsFor k d) := by
  rw [revertMetadataDiff]
  induction d generalizing bucket with
  | nil => rfl
  | cons e rest ih =>
    rw [List.foldl_cons]
    cases e with
    | mk pth prev =>
      rcases pth with _ | ⟨k0, ks⟩
      · have hskip : revertOne bucket ⟨[], prev⟩ = bucket := by
          rw [revertOne, revertOnePath]
        rw [hskip]
        simp only [revTailsFor]
        exact ih bucket
      · by_cases hkk : k0 = k
        · subst hkk
          have hstep := aGet_revertOne_head bucket ⟨k0 :: ks, prev⟩ k0 ks rfl hk
          simp only [revTailsFor, if_pos]
          show aGet (List.foldl revertOne
              (revertOne bucket ⟨k0 :: ks, prev⟩) rest) k0 =
            runRevTails (revertTailAction (aGet bucket k0) ks prev)
              (revTailsFor k0 rest)
          rw [← hstep]
          exact ih (revertOne bucket ⟨k0 :: ks, prev⟩)
        · have hstep : aGet (revertOne bucket ⟨k0 :: ks, prev⟩) k =
              aGet bucket k := by
            apply aGet_revertOne_ne
            intro hh
            exact hkk (by simpa using hh)
          simp only [revTailsFor, if_neg hkk]
          rw [← hstep]
          exact ih (revertOne bucket ⟨k0 :: ks, prev⟩)

/-- The effect of one metadata write on the value at its top-level key:
the value itself for a one-segment path, otherwise the raw walk applied
inside the (possibly missing or non-object, hence `{}`) child. -/
def setTailAction (o : Option Val) (ks : List String) (v : Val) : Val :=
  match ks with
  | [] => v
  | _ :: _ => Val.obj (setPathRaw (childEntries o) ks v)

/-- Folds key-relative writes over one binding; any write makes the
binding defined. -/
def runSetTails (o : Option Val) (ts : List (List String × Val)) :
    Option Val :=
  ts.foldl (fun o t => some (setTailAction o t.1 t.2)) o

/-- The writes rooted at top-level key `k`, with that key stripped. -/
def setTailsFor (k : String) : List (List String × Val) →
    List (List String × Val)
  | [] => []
  | w :: ws =>
    match w.1 with
    | [] => setTailsFor k ws
    | k0 :: ks =>
      if k0 = k then (ks, w.2) :: setTailsFor k ws
      else setTailsFor k ws

theorem aGet_setPathRaw_head (l : List (String × Val)) (k : String)
    (ks : List String) (v : Val) :
    aGet (setPathRaw l (k :: ks) v) k =
      some (setTailAction (aGet l k) ks v) := by
  cases ks with
  | nil =>
    rw [setPathRaw_single, aGet_aSet_self]
    rfl
  | cons k1 ks1 =>
    rw [setPathRaw_cons, aGet_aSet_self]
    rfl

/-- A write as `Metadata.set` receives it from a decorator: a non-empty
path of non-empty segments. -/
def goodWrite (w : List String × Val) : Prop :=
  w.1 ≠ [] ∧ ∀ s ∈ w.1, 0 < s.length

/-- Projection of a sequence of writes to one top-level key: the binding
at `k` after the writes is the fold of the key-relative writes rooted at
`k`. -/
theorem aGet_applyWrites (ws : List (List String × Val))
    (b : List (String × Val)) (k : String)
    (hws : ∀ w ∈ ws, goodWrite w) :
    aGet (applyWrites b ws) k = runSetTails (aGet b k) (setTailsFor k ws) := by
  rw [applyWrites]
  induction ws generalizing b with
  | nil => rfl
  | cons w rest ih =>
    rw [List.foldl_cons]
    have hw := hws w (List.mem_cons_self _ _)
    have hrest : ∀ w ∈ rest, goodWrite w :=
      fun w hm => hws w (List.mem_cons_of_mem _ hm)
    have hset : setValueBySplitter b w.1 w.2 = setPathRaw b w.1 w.2 :=
      setValueBySplitter_eq_raw _ _ _ hw.1 hw.2
    rw [hset]
    rcases hp : w.1 with _ | ⟨k0, ks⟩
    · exact absurd hp hw.1
    · by_cases hkk : k0 = k
      · subst hkk
        have hstep := aGet_setPathRaw_head b k0 ks w.2
        rw [show setTailsFor k0 (w :: rest) =
          (ks, w.2) :: setTailsFor k0 rest by
            simp only [setTailsFor, hp, if_pos]]
        show aGet (List.foldl (fun b t => setValueBySplitter b t.1 t.2)
            (setPathRaw b (k0 :: ks) w.2) rest) k0 =
          runSetTails (some (setTailAction (aGet b k0) ks w.2))
            (setTailsFor k0 rest)
        rw [← hstep]
        exact ih (setPathRaw b (k0 :: ks) w.2) hrest
      · have hstep : aGet (setPathRaw b (k0 :: ks) w.2) k = aGet b k := by
          apply aGet_setPathRaw_ne
          intro hh
          exact hkk (by simpa using hh)
        rw [show setTailsFor k (w :: rest) = setTailsFor k rest by
          simp only [setTailsFor, hp, if_neg hkk]]
        rw [← hstep]
        exact ih (setPathRaw b (k0 :: ks) w.2) hrest

/-- No write rooted at `k` means no key-relative writes for `k`. -/
theorem setTailsFor_eq_nil (k : String) (ws : List (List String × Val))
    (h : ∀ w ∈ ws, w.1.head? ≠ some k) : setTailsFor k ws = [] := by
  induction ws with
  | nil => rfl
  | cons w rest ih =>
    have hw := h w (List.mem_cons_self _ _)
    have hrest : ∀ w ∈ rest, w.1.head? ≠ some k :=
      fun w hm => h w (List.mem_cons_of_mem _ hm)
    rcases hp : w.1 with _ | ⟨k0, ks⟩
    · simp only [setTailsFor, hp]
      exact ih hrest
    · have hk0 : ¬ k0 = k := by
        intro hh
        exact hw (by rw [hp, hh]; rfl)
      simp only [setTailsFor, hp, if_neg hk0]
      exact ih hrest

/-- Every key-relative write comes from a write rooted at `k` with the
same value. -/
theorem setTailsFor_mem (k : String) (ws : List (List String × Val))
    (t : List String × Val) (h : t ∈ setTailsFor k ws) :
    ∃ w ∈ ws, w.1 = k :: t.1 ∧ w.2 = t.2 := by
  induction ws with
  | nil => cases h
  | cons w rest ih =>
    rcases hp : w.1 with _ | ⟨k0, ks⟩
    · simp only [setTailsFor, hp] at h
      rcases ih h with ⟨w', hw', hps⟩
      exact ⟨w', List.mem_cons_of_mem _ hw', hps⟩
    · simp only [setTailsFor, hp] at h
      by_cases hkk : k0 = k
      · rw [if_pos hkk] at h
        rcases List.mem_cons.mp h with h1 | h2
        · refine ⟨w, List.mem_cons_self _ _, ?_, ?_⟩
          · rw [hp, hkk, h1]
          · rw [h1]
        · rcases ih h2 with ⟨w', hw', hps⟩
          exact ⟨w', List.mem_cons_of_mem _ hw', hps⟩
      · rw [if_neg hkk] at h
        rcases ih h with ⟨w', hw', hps⟩
        exact ⟨w', List.mem_cons_of_mem _ hw', hps⟩

theorem aGet_mem {κ α : Type} [DecidableEq κ] {l : List (κ × α)} {k : κ}
    {v : α} (h : aGet l k = some v) : (k, v) ∈ l := by
  induction l with
  | nil => cases h
  | cons e r ih =>
    cases e with
    | mk k0 w =>
      rw [aGet] at h
      by_cases h0 : k0 = k
      · rw [if_pos h0] at h
        subst h0
        rw [Option.some_inj] at h
        subst h
        exact List.mem_cons_self _ _
      · rw [if_neg h0] at h
        exact List.mem_cons_of_mem _ (ih h)

theorem aGet_of_mem_nodup {l : List (String × Val)} {k : String} {v : Val}
    (hnd : keysNodup l) (h : (k, v) ∈ l) : aGet l k = some v := by
  induction l with
  | nil => cases h
  | cons e r ih =>
    cases e with
    | mk k0 w =>
      rw [keysNodup, List.map_cons, List.nodup_cons] at hnd
      rcases List.mem_cons.mp h with h1 | h2
      · cases h1
        rw [aGet, if_pos rfl]
      · have hk0 : ¬ k0 = k := by
          intro hh
          subst hh
          exact hnd.1 (List.mem_map.mpr ⟨(k0, v), h2, rfl⟩)
        rw [aGet, if_neg hk0]
        exact ih hnd.2 h2

theorem not_mem_keys_of_aGet_none {κ α : Type} [DecidableEq κ]
    {l : List (κ × α)} {k : κ} (h : aGet l k = none) :
    k ∉ l.map Prod.fst := by
  induction l with
  | nil => simp
  | cons e r ih =>
    cases e with
    | mk k0 w =>
      rw [aGet] at h
      by_cases h0 : k0 = k
      · rw [if_pos h0] at h
        cases h
      · rw [if_neg h0] at h
        intro hm
        rcases List.mem_cons.mp hm with h1 | h2
        · exact h0 h1.symm
        · exact ih h h2

theorem aDel_of_aGet_none {l : List (String × Val)} {k : String}
    (h : aGet l k = none) : aDel l k = l := by
  rw [aDel]
  apply List.filter_eq_self.mpr
  intro e he
  have hk := not_mem_keys_of_aGet_none h
  have : e.1 ≠ k := by
    intro hh
    exact hk (hh ▸ List.mem_map_of_mem _ he)
  simp [this]

theorem mem_aSet_eq {κ α : Type} [DecidableEq κ] {l : List (κ × α)} {k : κ}
    {v : α} {e : κ × α} (h : e ∈ aSet l k v) : e ∈ l ∨ e = (k, v) := by
  induction l with
  | nil =>
    simp [aSet] at h
    right
    rw [h]
  | cons a r ih =>
    cases a with
    | mk k0 w =>
      rw [aSet] at h
      by_cases hk : k0 = k
      · rw [if_pos hk] at h
        rcases List.mem_cons.mp h with h1 | h2
        · right; exact h1
        · left; exact List.mem_cons_of_mem _ h2
      · rw [if_neg hk] at h
        rcases List.mem_cons.mp h with h1 | h2
        · left; exact h1 ▸ List.mem_cons_self _ _
        · rcases ih h2 with h3 | h3
          · left; exact List.mem_cons_of_mem _ h3
          · right; exact h3

theorem solidValEntries_of {l : List (String × Val)}
    (h : ∀ e ∈ l, solidVal e.2 = true) : solidValEntries l = true := by
  induction l with
  | nil => rfl
  | cons e r ih =>
    cases e with
    | mk k v =>
      rw [solidValEntries, Bool.and_eq_true]
      exact ⟨h (k, v) (List.mem_cons_self _ _),
        ih fun e he => h e (List.mem_cons_of_mem _ he)⟩

theorem solidVal_obj_intro {l : List (String × Val)} (hne : l ≠ [])
    (hnd : keysNodup l) (h : ∀ e ∈ l, solidVal e.2 = true) :
    solidVal (Val.obj l) = true := by
  rw [solidVal, Bool.and_eq_true, Bool.and_eq_true]
  refine ⟨⟨?_, decide_eq_true hnd⟩, solidValEntries_of h⟩
  simpa [List.isEmpty_iff] using hne

/-- Solidity of a binding: absent, or present with a solid value. -/
def optSolid (o : Option Val) : Prop :=
  ∀ u, o = some u → solidVal u = true

/-- The child entry list of a solid binding has unique keys and solid
values. -/
theorem childEntries_solid {o : Option Val} (h : optSolid o) :
    keysNodup (childEntries o) ∧
      ∀ e ∈ childEntries o, solidVal e.2 = true := by
  rcases o with _ | u
  · exact ⟨List.nodup_nil, fun e he => by cases he⟩
  · cases u with
    | prim s => exact ⟨List.nodup_nil, fun e he => by cases he⟩
    | arr l => exact ⟨List.nodup_nil, fun e he => by cases he⟩
    | obj m =>
      have hm := solidVal_obj (h _ rfl)
      exact ⟨hm.2.1, hm.2.2⟩

/-- The raw walk preserves unique keys and solid values, and its result is
non-empty for a non-empty path. -/
theorem setPathRaw_solid (ks : List String) (hks : ks ≠ [])
    (m : List (String × Val)) (v : Val) (hnd : keysNodup m)
    (hm : ∀ e ∈ m, solidVal e.2 = true) (hv : solidVal v = true) :
    keysNodup (setPathRaw m ks v) ∧ setPathRaw m ks v ≠ [] ∧
      ∀ e ∈ setPathRaw m ks v, solidVal e.2 = true := by
  induction ks generalizing m with
  | nil => exact absurd rfl hks
  | cons k ks1 ih =>
    cases ks1 with
    | nil =>
      rw [setPathRaw_single]
      refine ⟨keysNodup_aSet hnd, aSet_ne_nil _ _ _, ?_⟩
      intro e he
      rcases mem_aSet_eq he with h1 | h1
      · exact hm e h1
      · rw [h1]
        exact hv
    | cons k2 ks2 =>
      rw [setPathRaw_cons]
      have hchild : keysNodup (childEntries (aGet m k)) ∧
          ∀ e ∈ childEntries (aGet m k), solidVal e.2 = true := by
        apply childEntries_solid
        intro u hu
        exact hm (k, u) (aGet_mem hu)
      have hinner := ih (List.cons_ne_nil _ _) (childEntries (aGet m k))
        hchild.1 hchild.2
      have hobj : solidVal (Val.obj (setPathRaw (childEntries (aGet m k))
          (k2 :: ks2) v)) = true :=
        solidVal_obj_intro hinner.2.1 hinner.1 hinner.2.2
      refine ⟨keysNodup_aSet hnd, aSet_ne_nil _ _ _, ?_⟩
      intro e he
      rcases mem_aSet_eq he with h1 | h1
      · exact hm e h1
      · rw [h1]
        exact hobj

/-- Folding writes with solid values keeps the binding solid. -/
theorem runSetTails_solid (ts : List (List String × Val))
    (hts : ∀ t ∈ ts, solidVal t.2 = true) (o : Option Val)
    (ho : optSolid o) : optSolid (runSetTails o ts) := by
  induction ts generalizing o with
  | nil => exact ho
  | cons t rest ih =>
    have ht := hts t (List.mem_cons_self _ _)
    have hrest : ∀ t ∈ rest, solidVal t.2 = true :=
      fun t hm => hts t (List.mem_cons_of_mem _ hm)
    rw [runSetTails, List.foldl_cons]
    apply ih hrest
    intro u hu
    rw [Option.some_inj] at hu
    subst hu
    rcases hp : t.1 with _ | ⟨k1, ks1⟩
    · exact ht
    · have hchild := childEntries_solid ho
      have := setPathRaw_solid (k1 :: ks1) (List.cons_ne_nil _ _)
        (childEntries o) t.2 hchild.1 hchild.2 ht
      exact solidVal_obj_intro this.2.1 this.1 this.2.2

/- The paths `diffMetadataBuckets` records for a subtree that was added
where nothing existed before: leaves of added plain objects, `[]` for an
added primitive or array, each with `existed: false`. -/
mutual
def addDiffPaths : Val → List (List String)
  | Val.prim _ => [[]]
  | Val.arr _ => [[]]
  | Val.obj l => addDiffPathsEntries l

def addDiffPathsEntries : List (String × Val) → List (List String)
  | [] => []
  | (k, v) :: r => (addDiffPaths v).map (fun p => k :: p) ++
      addDiffPathsEntries r
end

theorem addDiffPathsEntries_append (l1 l2 : List (String × Val)) :
    addDiffPathsEntries (l1 ++ l2) =
      addDiffPathsEntries l1 ++ addDiffPathsEntries l2 := by
  induction l1 with
  | nil => rfl
  | cons e r ih =>
    cases e with
    | mk k v =>
      rw [List.cons_append, addDiffPathsEntries, addDiffPathsEntries, ih,
        List.append_assoc]

theorem addDiffPaths_ne_nil (v : Val) (h : solidVal v = true) :
    addDiffPaths v ≠ [] := by
  induction v using valStrongInd with
  | h v ih =>
    cases v with
    | prim s => simp [addDiffPaths]
    | arr l => simp [addDiffPaths]
    | obj l =>
      rcases solidVal_obj h with ⟨hne, _, hsolid⟩
      cases l with
      | nil => exact absurd rfl hne
      | cons e r =>
        cases e with
        | mk k v1 =>
          rw [addDiffPaths, addDiffPathsEntries]
          have hv1 : addDiffPaths v1 ≠ [] := by
            apply ih v1
            · have hlt : sizeOf v1 < sizeOf ((k, v1) :: r) :=
                sizeOf_lt_of_mem_entries (List.mem_cons_self _ _)
              simp only [Val.obj.sizeOf_spec]
              omega
            · exact hsolid (k, v1) (List.mem_cons_self _ _)
          intro hcontra
          rcases List.append_eq_nil.mp hcontra with ⟨hmap, _⟩
          exact hv1 (List.map_eq_nil_iff.mp hmap)

theorem addDiffPathsEntries_paths_ne_nil (l : List (String × Val)) :
    ∀ p ∈ addDiffPathsEntries l, p ≠ [] := by
  induction l with
  | nil => intro p hp; cases hp
  | cons e r ih =>
    cases e with
    | mk k v =>
      intro p hp
      rw [addDiffPathsEntries] at hp
      rcases List.mem_append.mp hp with h1 | h2
      · rcases List.mem_map.mp h1 with ⟨p0, _, hp0⟩
        rw [← hp0]
        exact List.cons_ne_nil _ _
      · exact ih p h2

/-- Folds delete-revert actions (entries recorded with `existed: false`)
over one binding. -/
def runDelTails (o : Option Val) (ps : List (List String)) : Option Val :=
  ps.foldl (fun o p => revertTailAction o p none) o

theorem revertDelete_nil (p : List String) : revertDelete [] p = [] := by
  induction p with
  | nil => rfl
  | cons k ks ih =>
    cases ks with
    | nil => rfl
    | cons k1 ks1 =>
      rw [revertDelete]
      have hchild : childEntries (aGet ([] : List (String × Val)) k) = [] :=
        rfl
      rw [hchild, ih]
      rfl

theorem foldl_revertDelete_nil (ps : List (List String)) :
    List.foldl revertDelete [] ps = [] := by
  induction ps with
  | nil => rfl
  | cons p rest ih =>
    rw [List.foldl_cons, revertDelete_nil]
    exact ih

theorem revertTailAction_none_del (p : List String) :
    revertTailAction none p none = none := by
  cases p with
  | nil => rfl
  | cons k ks =>
    rw [revertTailAction]
    have hchild : childEntries none = ([] : List (String × Val)) := rfl
    rw [hchild, revertDelete_nil]
    rfl

theorem runDelTails_none (ps : List (List String)) :
    runDelTails none ps = none := by
  induction ps with
  | nil => rfl
  | cons p rest ih =>
    rw [runDelTails, List.foldl_cons, revertTailAction_none_del]
    exact ih

/-- The diff recorded for a solid value added where nothing existed: one
`existed: false` entry per added leaf, in key order. -/
theorem diffKey_none_solid (v : Val) (hv : solidVal v = true) :
    diffKey none (some v) [] =
      (addDiffPaths v).map (fun p => (⟨p, none⟩ : MetadataDiffEntry)) := by
  induction v using valStrongInd with
  | h v ih =>
    cases v with
    | prim s => simp [diffKey, addDiffPaths]
    | arr l => simp [diffKey, addDiffPaths]
    | obj nl =>
      rcases solidVal_obj hv with ⟨hne, hnd, hsolid⟩
      have h1 : diffKey none (some (Val.obj nl)) [] = diffObjects [] nl [] :=
        by rw [diffKey]
      rw [h1, diffObjects]
      have hkeys : jsSetOfList (aKeys ([] : List (String × Val)) ++
          aKeys nl) = aKeys nl := by
        have h0 : aKeys ([] : List (String × Val)) ++ aKeys nl = aKeys nl :=
          rfl
        rw [h0]
        exact jsSetOfList_eq_self hnd
      rw [hkeys]
      have aux : ∀ m : List (String × Val),
          (∀ kv : String × Val, kv ∈ m → aGet nl kv.1 = some kv.2) →
          (∀ kv : String × Val, kv ∈ m → kv ∈ nl) →
          diffKeys [] nl (aKeys m) [] =
            (addDiffPathsEntries m).map
              (fun p => (⟨p, none⟩ : MetadataDiffEntry)) := by
        intro m
        induction m with
        | nil =>
          intro _ _
          rw [show aKeys ([] : List (String × Val)) = [] from rfl, diffKeys]
          rfl
        | cons e r ihm =>
          cases e with
          | mk k1 v1 =>
            intro hagree hmem
            have hget : aGet nl k1 = some v1 :=
              hagree (k1, v1) (List.mem_cons_self _ _)
            rw [show aKeys ((k1, v1) :: r) = k1 :: aKeys r from rfl,
              diffKeys]
            rw [show aGet ([] : List (String × Val)) k1 = none from rfl,
              hget]
            rw [diffKey_shift none (some v1) ([] ++ [k1])]
            have hbridge : diffKey none (some v1) [] =
                (addDiffPaths v1).map
                  (fun p => (⟨p, none⟩ : MetadataDiffEntry)) := by
              apply ih v1
              · have hlt : sizeOf v1 < sizeOf nl :=
                  sizeOf_lt_of_mem_entries (hmem _ (List.mem_cons_self _ _))
                simp only [Val.obj.sizeOf_spec]
                omega
              · exact hsolid (k1, v1) (hmem _ (List.mem_cons_self _ _))
            rw [hbridge,
              ihm (fun kv hm => hagree kv (List.mem_cons_of_mem _ hm))
                (fun kv hm => hmem kv (List.mem_cons_of_mem _ hm)),
              addDiffPathsEntries, List.map_append, List.map_map,
              List.map_map]
            congr 1
      rw [aux nl (fun kv hm => aGet_of_mem_nodup hnd hm) (fun kv hm => hm)]
      rfl

theorem aDel_cons_self {k : String} {v : Val} {r : List (String × Val)}
    (hnd : keysNodup ((k, v) :: r)) : aDel ((k, v) :: r) k = r := by
  rw [keysNodup, List.map_cons, List.nodup_cons] at hnd
  rw [aDel, List.filter_cons]
  have hh : ((k, v).1 != k) = false := by simp
  rw [hh]
  simp only [Bool.false_eq_true, if_false]
  apply List.filter_eq_self.mpr
  intro e he
  have : e.1 ≠ k := by
    intro hh2
    exact hnd.1 (List.mem_map.mpr ⟨e, he, hh2⟩)
  simp [this]

theorem foldl_revertDelete_dead (k : String) (ps : List (List String))
    (hps : ∀ p ∈ ps, p ≠ []) (cur : List (String × Val))
    (hget : aGet cur k = none) :
    List.foldl revertDelete cur (ps.map (fun p => k :: p)) = cur := by
  induction ps with
  | nil => rfl
  | cons p rest ih =>
    rw [List.map_cons, List.foldl_cons]
    have hp := hps p (List.mem_cons_self _ _)
    have hstep : revertDelete cur (k :: p) = cur := by
      rcases p with _ | ⟨p1, pr⟩
      · exact absurd rfl hp
      · rw [revertDelete]
        have hchild : childEntries (aGet cur k) = [] := by
          rw [hget]
          rfl
        rw [hchild, revertDelete_nil]
        show aDel cur k = cur
        exact aDel_of_aGet_none hget
    rw [hstep]
    exact ih (fun p hm => hps p (List.mem_cons_of_mem _ hm))

theorem foldl_revertDelete_group (k : String) :
    ∀ (ps : List (List String)), (∀ p ∈ ps, p ≠ []) → ps ≠ [] →
    ∀ (cur c : List (String × Val)), keysNodup cur →
    aGet cur k = some (Val.obj c) →
    List.foldl revertDelete cur (ps.map (fun p => k :: p)) =
      (if (List.foldl revertDelete c ps).isEmpty then aDel cur k
       else aSet cur k (Val.obj (List.foldl revertDelete c ps))) := by
  intro ps
  induction ps with
  | nil =>
    intro _ hne
    exact absurd rfl hne
  | cons p rest ih =>
    intro hps _ cur c hnd hget
    have hp : p ≠ [] := hps p (List.mem_cons_self _ _)
    have hrest : ∀ p ∈ rest, p ≠ [] :=
      fun p hm => hps p (List.mem_cons_of_mem _ hm)
    rcases p with _ | ⟨p1, pr⟩
    · exact absurd rfl hp
    rw [List.map_cons, List.foldl_cons, List.foldl_cons]
    have hchild : childEntries (aGet cur k) = c := by
      rw [hget]
      rfl
    have hstep : revertDelete cur (k :: p1 :: pr) =
        (if (revertDelete c (p1 :: pr)).isEmpty then aDel cur k
         else aSet cur k (Val.obj (revertDelete c (p1 :: pr)))) := by
      rw [revertDelete, hchild]
    rw [hstep]
    by_cases hc2e : (revertDelete c (p1 :: pr)).isEmpty
    · rw [if_pos hc2e]
      have hc2nil : revertDelete c (p1 :: pr) = [] :=
        List.isEmpty_iff.mp hc2e
      rw [hc2nil, foldl_revertDelete_nil]
      rw [foldl_revertDelete_dead k rest hrest (aDel cur k) aGet_aDel_self]
      simp
    · rw [if_neg hc2e]
      rcases rest with _ | ⟨r1, rrest⟩
      · rw [show List.map (fun p => k :: p) [] = [] from rfl]
        rw [List.foldl_nil, List.foldl_nil, if_neg hc2e]
      · rw [ih hrest (List.cons_ne_nil _ _)
          (aSet cur k (Val.obj (revertDelete c (p1 :: pr))))
          (revertDelete c (p1 :: pr)) (keysNodup_aSet hnd)
          (aGet_aSet_self _ _ _)]
        rw [aDel_aSet_self, aSet_aSet_self]

/-- Deleting, in recorded order, every leaf path of a solid value found at
key `k` removes the `k` binding entirely (ancestor pruning leaves nothing
behind). -/
theorem foldl_revertDelete_solid (v : Val) :
    solidVal v = true → ∀ (k : String) (cur : List (String × Val)),
    keysNodup cur → aGet cur k = some v →
    List.foldl revertDelete cur ((addDiffPaths v).map (fun p => k :: p)) =
      aDel cur k := by
  induction v using valStrongInd with
  | h v ih =>
    intro hv k cur hnd hget
    cases v with
    | prim s =>
      rw [show (addDiffPaths (Val.prim s)).map (fun p => k :: p) = [[k]]
        from rfl]
      rfl
    | arr l =>
      rw [show (addDiffPaths (Val.arr l)).map (fun p => k :: p) = [[k]]
        from rfl]
      rfl
    | obj nl =>
      rcases solidVal_obj hv with ⟨hne, hndl, hsolid⟩
      have hps : ∀ p ∈ addDiffPaths (Val.obj nl), p ≠ [] := by
        rw [addDiffPaths]
        exact addDiffPathsEntries_paths_ne_nil nl
      have hpne : addDiffPaths (Val.obj nl) ≠ [] :=
        addDiffPaths_ne_nil _ hv
      rw [foldl_revertDelete_group k _ hps hpne cur nl hnd hget]
      have aux : ∀ m : List (String × Val), keysNodup m →
          (∀ e ∈ m, solidVal e.2 = true) →
          (∀ e : String × Val, e ∈ m → sizeOf e.2 < sizeOf (Val.obj nl)) →
          List.foldl revertDelete m (addDiffPathsEntries m) = [] := by
        intro m
        induction m with
        | nil => intro _ _ _; rfl
        | cons e r ihm =>
          cases e with
          | mk k1 v1 =>
            intro hndm hsolidm hszm
            rw [addDiffPathsEntries, List.foldl_append]
            have hgrp := ih v1 (hszm (k1, v1) (List.mem_cons_self _ _))
              (hsolidm _ (List.mem_cons_self _ _)) k1 ((k1, v1) :: r) hndm
              (by rw [aGet, if_pos rfl])
            rw [hgrp, aDel_cons_self hndm]
            have hndr : keysNodup r := by
              rw [keysNodup, List.map_cons, List.nodup_cons] at hndm
              exact hndm.2
            exact ihm hndr
              (fun e hm => hsolidm e (List.mem_cons_of_mem _ hm))
              (fun e hm => hszm e (List.mem_cons_of_mem _ hm))
      have hmain : List.foldl revertDelete nl (addDiffPaths (Val.obj nl)) =
          [] := by
        rw [addDiffPaths]
        apply aux nl hndl hsolid
        intro e hm
        have hlt : sizeOf e.2 < sizeOf nl := by
          rcases e with ⟨ek, ev⟩
          exact sizeOf_lt_of_mem_entries hm
        simp only [Val.obj.sizeOf_spec]
        omega
      rw [hmain]
      simp

theorem runDelTails_obj : ∀ (ps : List (List String)),
    (∀ p ∈ ps, p ≠ []) → ∀ cur : List (String × Val),
    (cur.isEmpty → ps ≠ []) →
    runDelTails (some (Val.obj cur)) ps =
      (if (List.foldl revertDelete cur ps).isEmpty then none
       else some (Val.obj (List.foldl revertDelete cur ps))) := by
  intro ps
  induction ps with
  | nil =>
    intro _ cur hcur
    have hval : ¬ cur.isEmpty = true := fun hh => (hcur hh) rfl
    rw [List.foldl_nil, if_neg hval]
    rfl
  | cons p rest ih =>
    intro hps cur _
    have hp := hps p (List.mem_cons_self _ _)
    have hrest : ∀ p ∈ rest, p ≠ [] :=
      fun p hm => hps p (List.mem_cons_of_mem _ hm)
    rcases p with _ | ⟨p1, pr⟩
    · exact absurd rfl hp
    rw [runDelTails, List.foldl_cons, List.foldl_cons]
    have hact : revertTailAction (some (Val.obj cur)) (p1 :: pr) none =
        (if (revertDelete cur (p1 :: pr)).isEmpty then none
         else some (Val.obj (revertDelete cur (p1 :: pr)))) := by
      rw [revertTailAction]
      rfl
    rw [hact]
    by_cases hm : (revertDelete cur (p1 :: pr)).isEmpty
    · rw [if_pos hm]
      have hnil : revertDelete cur (p1 :: pr) = [] := List.isEmpty_iff.mp hm
      rw [hnil, foldl_revertDelete_nil]
      have hr : List.foldl (fun o p => revertTailAction o p none) none rest =
          none := runDelTails_none rest
      rw [hr]
      simp
    · rw [if_neg hm]
      exact ih hrest (revertDelete cur (p1 :: pr)) (fun hh => (hm hh).elim)

/-- Reverting, in order, every `existed: false` entry the diff recorded
for an added solid value deletes the binding completely: no residue
outside `properties` survives the rollback. -/
theorem runDelTails_addDiffPaths (v : Val) (hv : solidVal v = true) :
    runDelTails (some v) (addDiffPaths v) = none := by
  cases v with
  | prim s => rfl
  | arr l => rfl
  | obj nl =>
    rcases solidVal_obj hv with ⟨hne, hnd, hsolid⟩
    have hps : ∀ p ∈ addDiffPaths (Val.obj nl), p ≠ [] := by
      rw [addDiffPaths]
      exact addDiffPathsEntries_paths_ne_nil nl
    rw [runDelTails_obj (addDiffPaths (Val.obj nl)) hps nl
      (fun _ => addDiffPaths_ne_nil _ hv)]
    have aux : ∀ m : List (String × Val), keysNodup m →
        (∀ e ∈ m, solidVal e.2 = true) →
        List.foldl revertDelete m (addDiffPathsEntries m) = [] := by
      intro m
      induction m with
      | nil => intro _ _; rfl
      | cons e r ihm =>
        cases e with
        | mk k1 v1 =>
          intro hndm hsolidm
          rw [addDiffPathsEntries, List.foldl_append]
          have hgrp := foldl_revertDelete_solid v1
            (hsolidm _ (List.mem_cons_self _ _)) k1 ((k1, v1) :: r) hndm
            (by rw [aGet, if_pos rfl])
          rw [hgrp, aDel_cons_self hndm]
          have hndr : keysNodup r := by
            rw [keysNodup, List.map_cons, List.nodup_cons] at hndm
            exact hndm.2
          exact ihm hndr (fun e hm => hsolidm e (List.mem_cons_of_mem _ hm))
    have hmain : List.foldl revertDelete nl (addDiffPaths (Val.obj nl)) =
        [] := by
      rw [addDiffPaths]
      exact aux nl hnd hsolid
    rw [hmain]
    simp

/- `DecorationKeys.FLAVOUR` / `DecorationKeys.DECORATION`
(src/src/constants.ts): the enum members referenced by `uses` and
`resolvePendingDecorators`.  Their string values are not part of the
provided enum text; the development only relies on them being distinct
from each other and from `DecorationKeys.PROPERTIES = "properties"`. -/
def FlavourKey : String := "flavour"

def DecorationKey : String := "decoration"

/-- One `applyPendingEntry` call (src/src/decoration/Decoration.ts lines
1141-1214) for a member decorator, under the flavour whose metadata
writes are `ws`: the callback's `Metadata.set` writes run in order, the
`prop()` fallback records the member's design type under
`properties.<member>`, and the before/after diff is recorded only when the
entry has no diff yet.  In the pure embedding `cloneMetadataValue` is the
identity (`cloneDeep_id`), so snapshots are the buckets themselves;
property descriptors have no metadata effect and are not modelled. -/
def applyPendingEntryRun (bucket : List (String × Val))
    (diff0 : Option (List MetadataDiffEntry))
    (ws : List (List String × Val)) (m : String) (design : Val) :
    List (String × Val) × List MetadataDiffEntry :=
  let b2 := setValueBySplitter (applyWrites bucket ws) [PropertiesKey, m]
    design
  match diff0 with
  | some d0 => (b2, d0)
  | none => (b2, diffObjects bucket b2 [])

/-- Owner bucket when the member attachment runs first: the scheduled
default resolve (src/src/decoration/Decoration.ts lines 1384-1396,
non-finalize branch) applies the entry with the default flavour (writes
`wd`), records its diff and sets `DECORATION := true`; then `uses(v)`
(src/src/decorators.ts lines 38-49) sets `FLAVOUR := v` and runs the
finalize pass (lines 1350-1383): when `shouldOverrideEntry` holds it
reverts the recorded diff, re-applies with `v` (writes `wv`, diff kept),
otherwise it leaves the provisional application in place; either way
`DECORATION := true` ends the pass. -/
def orderA (wd wv : List (List String × Val)) (m : String) (design : Val)
    (v : String) (hasOv : Bool) : List (String × Val) :=
  let r := applyPendingEntryRun [] none wd m design
  let b2 := setValueBySplitter r.1 [DecorationKey] (Val.prim "true")
  let b3 := setValueBySplitter b2 [FlavourKey] (Val.prim v)
  let b5 :=
    if hasOv then
      (applyPendingEntryRun (revertMetadataDiff b3 r.2) (some r.2)
        wv m design).1
    else b3
  setValueBySplitter b5 [DecorationKey] (Val.prim "true")

/-- Owner bucket when `uses(v)` runs first: it sets `FLAVOUR := v` and its
resolve call returns on the empty queue (line 1345); the member
attachment's scheduled resolve then reads `FLAVOUR = v` as the resolved
flavour (lines 1326-1330) and applies the entry once with `v` (writes
`wv`), ending with `DECORATION := true`. -/
def orderB (wv : List (List String × Val)) (m : String) (design : Val)
    (v : String) : List (String × Val) :=
  let c1 := setValueBySplitter [] [FlavourKey] (Val.prim v)
  let r := applyPendingEntryRun c1 none wv m design
  setValueBySplitter r.1 [DecorationKey] (Val.prim "true")

theorem applyWrites_append (b : List (String × Val))
    (l1 l2 : List (List String × Val)) :
    applyWrites b (l1 ++ l2) = applyWrites (applyWrites b l1) l2 := by
  rw [applyWrites, applyWrites, applyWrites, List.foldl_append]

theorem applyPendingEntryRun_fst (bucket : List (String × Val))
    (diff0 : Option (List MetadataDiffEntry))
    (ws : List (List String × Val)) (m : String) (design : Val) :
    (applyPendingEntryRun bucket diff0 ws m design).1 =
      applyWrites bucket (ws ++ [([PropertiesKey, m], design)]) := by
  rw [applyWrites_append]
  cases diff0 <;> rfl

theorem applyPendingEntryRun_snd_none (bucket : List (String × Val))
    (ws : List (List String × Val)) (m : String) (design : Val) :
    (applyPendingEntryRun bucket none ws m design).2 =
      diffObjects bucket
        (applyWrites bucket (ws ++ [([PropertiesKey, m], design)])) [] := by
  rw [applyWrites_append]
  rfl

theorem applyPendingEntryRun_snd_some (bucket : List (String × Val))
    (d0 : List MetadataDiffEntry) (ws : List (List String × Val))
    (m : String) (design : Val) :
    (applyPendingEntryRun bucket (some d0) ws m design).2 = d0 := rfl

theorem aGet_setSingle_self (x : List (String × Val)) (k' : String)
    (u : Val) (hk' : 0 < k'.length) :
    aGet (setValueBySplitter x [k'] u) k' = some u := by
  rw [setValueBySplitter_eq_raw x [k'] u (List.cons_ne_nil _ _)
    (by intro s hs; rw [List.mem_singleton] at hs; subst hs; exact hk')]
  rw [setPathRaw_single]
  exact aGet_aSet_self _ _ _

theorem aGet_setSingle_ne (x : List (String × Val)) (k' : String) (u : Val)
    {k : String} (hk' : 0 < k'.length) (hne : k ≠ k') :
    aGet (setValueBySplitter x [k'] u) k = aGet x k := by
  rw [setValueBySplitter_eq_raw x [k'] u (List.cons_ne_nil _ _)
    (by intro s hs; rw [List.mem_singleton] at hs; subst hs; exact hk')]
  apply aGet_setPathRaw_ne
  intro hh
  rw [List.head?_cons, Option.some_inj] at hh
  exact hne hh.symm

theorem mapTails_map_entry (l : List (List String)) :
    mapTails (l.map (fun p => (⟨p, none⟩ : MetadataDiffEntry))) =
      l.map (fun p => (p, (none : Option Val))) := by
  rw [mapTails, List.map_map]
  rfl

theorem runRevTails_map_paths (o : Option Val) (ps : List (List String)) :
    runRevTails o (ps.map (fun p => (p, (none : Option Val)))) =
      runDelTails o ps := by
  rw [runRevTails, runDelTails, List.foldl_map]

theorem runSetTails_nil (o : Option Val) : runSetTails o [] = o := rfl

theorem runRevTails_nil (o : Option Val) : runRevTails o [] = o := rfl

theorem diffKey_none_none (path : List String) :
    diffKey none none path = [] := by
  rw [diffKey]

/-- C1 (amended): for a member attachment (metadata writes `wd` under the
default flavour, `wv` under the final flavour `v`, plus the `prop()`
design-type write) and an owner `uses(v)` attachment, the final owner
bucket is the same whichever attachment runs first — at every top-level
metadata key except `properties`.  Hypotheses: the member name is
non-empty; when the finalize pass keeps the provisional application
(`shouldOverrideEntry` false) the two flavours write the same data; the
writes have non-empty paths with non-empty segments, are not rooted at the
`FLAVOUR` or `DECORATION` bookkeeping keys, and write solid values (no
empty-object nodes, unique keys); `v` is truthy and not the default
flavour.  At the `properties` key the orders can differ (the revert skips
it): see the counterexample. -/
theorem c1_order_outside_properties
    (wd wv : List (List String × Val)) (m : String) (design : Val)
    (v : String) (hasOv : Bool)
    (hm : m ≠ "")
    (hOv : hasOv = false → wv = wd)
    (hW : ∀ w ∈ wd ++ wv, goodWrite w ∧ w.1.head? ≠ some FlavourKey ∧
      w.1.head? ≠ some DecorationKey ∧ solidVal w.2 = true)
    (hv1 : v ≠ DefaultFlavour) (hv2 : v ≠ "") :
    ∀ k, k ≠ PropertiesKey →
      aGet (orderA wd wv m design v hasOv) k =
        aGet (orderB wv m design v) k := by
  intro k hkP
  have hPlen : 0 < PropertiesKey.length := by decide
  have hFlen : 0 < FlavourKey.length := by decide
  have hDlen : 0 < DecorationKey.length := by decide
  have hFP : FlavourKey ≠ PropertiesKey := by decide
  have hFD : FlavourKey ≠ DecorationKey := by decide
  have hmlen : 0 < m.length := by
    rcases Nat.eq_zero_or_pos m.length with h0 | h1
    · exact absurd (String.ext (by
        have := congrArg String.data (rfl : m = m)
        cases hdata : m.data with
        | nil => rfl
        | cons c cs =>
          exfalso
          rw [show m.length = m.data.length from rfl, hdata] at h0
          simp at h0)) hm
    · exact h1
  have hpropGood : goodWrite ([PropertiesKey, m], design) := by
    constructor
    · exact List.cons_ne_nil _ _
    · intro s hs
      rcases List.mem_cons.mp hs with h1 | h2
      · subst h1
        exact hPlen
      · rw [List.mem_singleton] at h2
        subst h2
        exact hmlen
  have hgood1 : ∀ w ∈ wd ++ [([PropertiesKey, m], design)], goodWrite w := by
    intro w hw
    rcases List.mem_append.mp hw with h1 | h2
    · exact (hW w (List.mem_append.mpr (Or.inl h1))).1
    · rw [List.mem_singleton] at h2
      subst h2
      exact hpropGood
  have hgood2 : ∀ w ∈ wv ++ [([PropertiesKey, m], design)], goodWrite w := by
    intro w hw
    rcases List.mem_append.mp hw with h1 | h2
    · exact (hW w (List.mem_append.mpr (Or.inr h1))).1
    · rw [List.mem_singleton] at h2
      subst h2
      exact hpropGood
  have htailsF1 : setTailsFor FlavourKey
      (wd ++ [([PropertiesKey, m], design)]) = [] := by
    apply setTailsFor_eq_nil
    intro w hw
    rcases List.mem_append.mp hw with h1 | h2
    · exact (hW w (List.mem_append.mpr (Or.inl h1))).2.1
    · rw [List.mem_singleton] at h2
      subst h2
      intro hh
      rw [List.head?_cons, Option.some_inj] at hh
      exact hFP hh.symm
  have htailsF2 : setTailsFor FlavourKey
      (wv ++ [([PropertiesKey, m], design)]) = [] := by
    apply setTailsFor_eq_nil
    intro w hw
    rcases List.mem_append.mp hw with h1 | h2
    · exact (hW w (List.mem_append.mpr (Or.inr h1))).2.1
    · rw [List.mem_singleton] at h2
      subst h2
      intro hh
      rw [List.head?_cons, Option.some_inj] at hh
      exact hFP hh.symm
  by_cases hkD : k = DecorationKey
  · subst hkD
    simp only [orderA, orderB, applyPendingEntryRun_fst,
      applyPendingEntryRun_snd_none]
    rw [aGet_setSingle_self _ DecorationKey _ hDlen,
      aGet_setSingle_self _ DecorationKey _ hDlen]
  · by_cases hkF : k = FlavourKey
    · subst hkF
      simp only [orderA, orderB, applyPendingEntryRun_fst,
        applyPendingEntryRun_snd_none]
      rw [aGet_setSingle_ne _ DecorationKey _ hDlen hFD,
        aGet_setSingle_ne _ DecorationKey _ hDlen hFD]
      rw [aGet_applyWrites _ _ _ hgood2, htailsF2, runSetTails_nil,
        aGet_setSingle_self _ FlavourKey _ hFlen]
      cases hasOv with
      | false =>
        simp only [Bool.false_eq_true, if_false]
        rw [aGet_setSingle_self _ FlavourKey _ hFlen]
      | true =>
        rw [if_pos rfl]
        rw [aGet_applyWrites _ _ _ hgood2, htailsF2, runSetTails_nil]
        rw [aGet_revertMetadataDiff _ _ hFP]
        rw [revTailsFor_diffObjects]
        rw [aGet_setSingle_self _ FlavourKey _ hFlen]
        rw [aGet_applyWrites _ _ _ hgood1, htailsF1, runSetTails_nil]
        rw [show aGet ([] : List (String × Val)) FlavourKey = none from rfl]
        rw [diffKey_none_none]
        rw [show mapTails ([] : List MetadataDiffEntry) = [] from rfl]
        rw [runRevTails_nil]
    · simp only [orderA, orderB, applyPendingEntryRun_fst,
        applyPendingEntryRun_snd_none]
      rw [aGet_setSingle_ne _ DecorationKey _ hDlen hkD,
        aGet_setSingle_ne _ DecorationKey _ hDlen hkD]
      rw [aGet_applyWrites _ _ _ hgood2,
        aGet_setSingle_ne _ FlavourKey _ hFlen hkF,
        show aGet ([] : List (String × Val)) k = none from rfl]
      cases hasOv with
      | false =>
        have hweq : wv = wd := hOv rfl
        simp only [Bool.false_eq_true, if_false]
        rw [aGet_setSingle_ne _ FlavourKey _ hFlen hkF,
          aGet_setSingle_ne _ DecorationKey _ hDlen hkD]
        rw [aGet_applyWrites _ _ _ hgood1,
          show aGet ([] : List (String × Val)) k = none from rfl]
        rw [hweq]
      | true =>
        rw [if_pos rfl]
        rw [aGet_applyWrites _ _ _ hgood2]
        rw [aGet_revertMetadataDiff _ _ hkP]
        rw [revTailsFor_diffObjects]
        rw [aGet_setSingle_ne _ FlavourKey _ hFlen hkF,
          aGet_setSingle_ne _ DecorationKey _ hDlen hkD]
        rw [aGet_applyWrites _ _ _ hgood1,
          show aGet ([] : List (String × Val)) k = none from rfl]
        rcases ho1 : runSetTails (none : Option Val)
            (setTailsFor k (wd ++ [([PropertiesKey, m], design)]))
          with _ | u
        · rw [diffKey_none_none,
            show mapTails ([] : List MetadataDiffEntry) = [] from rfl,
            runRevTails_nil]
        · have hu : solidVal u = true := by
            have hts : ∀ t ∈ setTailsFor k
                (wd ++ [([PropertiesKey, m], design)]),
                solidVal t.2 = true := by
              intro t ht
              rcases setTailsFor_mem _ _ _ ht with ⟨w, hwmem, hw1, hw2⟩
              rcases List.mem_append.mp hwmem with h1 | h2
              · rw [← hw2]
                exact (hW w (List.mem_append.mpr (Or.inl h1))).2.2.2
              · rw [List.mem_singleton] at h2
                subst h2
                exfalso
                apply hkP
                have hinj : PropertiesKey = k := by
                  have hcc : PropertiesKey :: [m] = k :: t.1 := hw1
                  exact (List.cons.injEq _ _ _ _ ▸ hcc : _ ∧ _).1
                exact hinj.symm
            have hrun := runSetTails_solid _ hts none
              (fun u hu => by cases hu)
            exact hrun u ho1
          rw [diffKey_none_solid u hu, mapTails_map_entry,
            runRevTails_map_paths, runDelTails_addDiffPaths u hu]


/-- C1 (counterexample to the claim as stated): with a member behavior
that writes `properties.legacy` under the default flavour and nothing
under the final flavour `"x"`, the two attachment orders end with
different `properties` subtrees: the finalize revert skips
`properties`-rooted diff entries, so the provisional default-variant
write survives in the member-first order but never happens in the
owner-first order.  The final buckets are not identical, and the
provisional run does leave a residual key. -/
theorem c1_counterexample :
    aGet (orderA [([PropertiesKey, "legacy"], Val.prim "L")] [] "f"
        (Val.prim "T") "x" true) PropertiesKey ≠
      aGet (orderB [] "f" (Val.prim "T") "x") PropertiesKey := by
  have hd : (applyPendingEntryRun [] none
      [([PropertiesKey, "legacy"], Val.prim "L")] "f" (Val.prim "T")).2 =
      [⟨[PropertiesKey, "legacy"], (none : Option Val)⟩,
       ⟨[PropertiesKey, "f"], none⟩] := by
    rw [applyPendingEntryRun_snd_none]
    have happ : applyWrites []
        ([([PropertiesKey, "legacy"], Val.prim "L")] ++
          [([PropertiesKey, "f"], Val.prim "T")]) =
        [(PropertiesKey,
          Val.obj [("legacy", Val.prim "L"), ("f", Val.prim "T")])] := rfl
    rw [happ]
    simp +decide [diffObjects, diffKeys, diffKey, jsSetOfList, jsSetAdd,
      aKeys, aGet, cloneDeep, PropertiesKey]
  simp only [orderA, orderB]
  rw [hd]
  decide

theorem c1_order_outside_properties_witness :
    aGet (orderA [(["cfg"], Val.prim "1")] [(["cfg"], Val.prim "1")] "f"
        (Val.prim "T") "x" true) "cfg" =
      aGet (orderB [(["cfg"], Val.prim "1")] "f" (Val.prim "T") "x")
        "cfg" :=
  c1_order_outside_properties [(["cfg"], Val.prim "1")]
    [(["cfg"], Val.prim "1")] "f" (Val.prim "T") "x" true
    (by decide) (fun h => Bool.noConfusion h)
    (by
      intro w hw
      have hc : w = (["cfg"], Val.prim "1") := by
        rcases List.mem_append.mp hw with h | h <;> simpa using h
      subst hc
      exact ⟨⟨by decide, by decide⟩, by decide, by decide, by decide⟩)
    (by decide) (by decide) "cfg" (by decide)
